import Mathlib

/-!
# SES event anonymizer: a verification development

A shallow embedding of `main.go` (the Firehose transformation handler that masks
e-mail addresses and subjects inside SES event documents) together with theorems
about it.

Modelling conventions.

* A Go `string` is a sequence of characters (`List Char`, wrapped in `String`).  Every
  character class of the e-mail pattern is ASCII, so a matched substring consists of
  one-byte characters only and byte indexing (`localPart[0]`, `len(localPart)`) coincides
  with character indexing on everything the masking loop touches.
* A run-time panic (an index out of range) is the value `none`; a function that can
  panic returns `Option`.
* `regexp.FindAllString` is modelled by a greedy backtracking matcher over the items of
  the pattern, which is the documented leftmost-first semantics of the `regexp` package.
* An event document is a tree of JSON values, as `json.Unmarshal` builds it: no slice or
  map occurs in two places, so the in-place updates of the redactors are modelled by
  returning the updated mapping.  A Go map is an association list read by first match.
* `json.Unmarshal` and `json.Marshal` are parameters of `processRecord` and `handler`;
  the calls to `log.Printf` have no effect on the results and are left out.
-/

namespace SesAnonymizer

/-! ## Character classes of the e-mail pattern -/

/-- The character range `lo-hi` of a bracket expression. -/
def inRange (lo hi c : Char) : Bool :=
  decide (lo.toNat ≤ c.toNat) && decide (c.toNat ≤ hi.toNat)

/-- The class `[a-zA-Z]`. -/
def isLetter (c : Char) : Bool := inRange 'a' 'z' c || inRange 'A' 'Z' c

/-- The class `[0-9]`. -/
def isDigit (c : Char) : Bool := inRange '0' '9' c

/-- The class `[a-zA-Z0-9._%+-]` of the local part. -/
def isLocalChar (c : Char) : Bool :=
  isLetter c || isDigit c || c == '.' || c == '_' || c == '%' || c == '+' || c == '-'

/-- The class `[a-zA-Z0-9.-]` of the domain part. -/
def isDomainChar (c : Char) : Bool :=
  isLetter c || isDigit c || c == '.' || c == '-'

/-! ## The regular expression and its matcher -/

/-- One item of a pattern: a literal character, or a character class repeated greedily
at least `min` times (`+` is `min = 1`, `{2,}` is `min = 2`). -/
inductive Item where
  | lit (c : Char)
  | rep (cls : Char → Bool) (min : Nat)

/-- Match one literal character, then continue with `k`; the result is the number of
characters consumed. -/
def matchLit (ch : Char) (k : List Char → Option Nat) : List Char → Option Nat
  | [] => none
  | c :: cs => if c = ch then (k cs).map (· + 1) else none

/-- Greedy repetition of a class: consume one more character whenever possible, and fall
back to the continuation `k` only if the longer attempt fails and `min` characters
have been consumed. -/
def matchRep (cls : Char → Bool) (k : List Char → Option Nat) : Nat → List Char → Option Nat
  | min, [] => if min = 0 then k [] else none
  | min, c :: cs =>
    if cls c then
      match matchRep cls k (min - 1) cs with
      | some n => some (n + 1)
      | none => if min = 0 then k (c :: cs) else none
    else if min = 0 then k (c :: cs) else none

/-- The first match a backtracking search finds for the pattern at the start of the
input, as the length of the matched prefix. -/
def matchItems : List Item → List Char → Option Nat
  | [], _ => some 0
  | .lit c :: rest, s => matchLit c (matchItems rest) s
  | .rep cls min :: rest, s => matchRep cls (matchItems rest) min s

/-- The pattern `[a-zA-Z0-9._%+-]+@[a-zA-Z0-9.-]+\.[a-zA-Z]{2,}` compiled in `maskEmail`. -/
def emailRegex : List Item :=
  [.rep isLocalChar 1, .lit '@', .rep isDomainChar 1, .lit '.', .rep isLetter 2]

/-- The scan of `FindAllString`: at a position outside a match try the pattern; a match
of `n + 1` characters is delivered and the next `n` positions are skipped, so the
search resumes at the end of the match; otherwise move one character on. -/
def findAllFrom (re : List Item) : List Char → Nat → List (List Char)
  | [], _ => []
  | _ :: cs, skip + 1 => findAllFrom re cs skip
  | c :: cs, 0 =>
    match matchItems re (c :: cs) with
    | some (n + 1) => (c :: cs).take (n + 1) :: findAllFrom re cs n
    | _ => findAllFrom re cs 0

/-- The call `re.FindAllString(s, -1)`: all successive non-overlapping matches. -/
def findAllString (re : List Item) (s : List Char) : List (List Char) :=
  findAllFrom re s 0

/-! ## maskEmail -/

/-- The call `strings.Split(s, sep)` for a one-character separator. -/
def split (sep : Char) : List Char → List (List Char)
  | [] => [[]]
  | c :: cs =>
    if c = sep then [] :: split sep cs
    else match split sep cs with
      | [] => [[c]]
      | p :: ps => (c :: p) :: ps

/-- The body of the loop of `maskEmail` for one matched address `e`; `none` is an index
out of range. -/
def maskOne (e : List Char) : Option (List Char) := do
  let parts := split '@' e
  let localPart ← parts[0]?
  let domainPart ← parts[1]?
  let maskedLocal ←
    if localPart.length > 1 then do
      let c ← localPart[0]?
      pure (c :: List.replicate (localPart.length - 1) '*')
    else pure localPart
  let maskedDomain ←
    if domainPart.length > 2 then do
      let c0 ← domainPart[0]?
      let cl ← domainPart[domainPart.length - 1]?
      pure (c0 :: List.replicate (domainPart.length - 2) '*' ++ [cl])
    else pure domainPart
  pure (maskedLocal ++ '@' :: maskedDomain)

/-- The function `maskEmail` of `main.go`. -/
def maskEmail (email : String) : Option String :=
  let emails := findAllString emailRegex email.data
  if emails.length = 0 then some email
  else (emails.mapM maskOne).map (fun maskedEmails => String.mk (List.intercalate [','] maskedEmails))

/-! ## Event documents -/

/-- A value of a decoded event document, as `encoding/json` produces it for the Go type
`any`: `nil`, `bool`, `float64`, `string`, `[]any` or `map[string]any`.  A document is
a tree: no slice or map is shared between two places. -/
inductive JValue where
  | null
  | bool (b : Bool)
  | num (n : Float)
  | str (s : String)
  | arr (xs : List JValue)
  | obj (kvs : List (String × JValue))

/-- A Go `map[string]any`, kept as an association list that is read by first match. -/
abbrev JObject := List (String × JValue)

/-- The read `m[k]`; `none` is the zero value returned for an absent key. -/
def getKey (k : String) : JObject → Option JValue
  | [] => none
  | (k2, v) :: rest => if k2 = k then some v else getKey k rest

/-- The assignment `m[k] = v`: replace the entry of `k`, or add one. -/
def setKey (k : String) (v : JValue) : JObject → JObject
  | [] => [(k, v)]
  | (k2, v2) :: rest => if k2 = k then (k, v) :: rest else (k2, v2) :: setKey k v rest

/-- The constant `omittedSubject`. -/
def omittedSubject : String := "**Omitted**"

/-! ## The shape redactors -/

/-- The body of the loops over address strings: `if email, ok := addr.(string); ok
{ xs[i] = maskEmail(email) }`. -/
def maskAddr (addr : JValue) : Option JValue :=
  match addr with
  | .str email => (maskEmail email).map JValue.str
  | other => some other

/-- The function `processDelivery` of `main.go`; the mutated map is returned. -/
def processDelivery (delivery : JObject) : Option JObject :=
  match getKey "recipients" delivery with
  | some (.arr recipients) =>
    (recipients.mapM maskAddr).map (fun rs => setKey "recipients" (.arr rs) delivery)
  | _ => some delivery

/-- The first block of `processMail`: the `destination` array. -/
def maskDestination (mail : JObject) : Option JObject :=
  match getKey "destination" mail with
  | some (.arr destination) =>
    (destination.mapM maskAddr).map (fun ds => setKey "destination" (.arr ds) mail)
  | _ => some mail

/-- The second block of `processMail`: the `to` array and the subject of `commonHeaders`. -/
def maskCommonHeaders (mail : JObject) : Option JObject :=
  match getKey "commonHeaders" mail with
  | some (.obj commonHeaders) => do
    let commonHeaders ←
      match getKey "to" commonHeaders with
      | some (.arr tos) => (tos.mapM maskAddr).map (fun ts => setKey "to" (.arr ts) commonHeaders)
      | _ => some commonHeaders
    pure (setKey "commonHeaders"
      (.obj (setKey "subject" (.str omittedSubject) commonHeaders)) mail)
  | _ => some mail

/-- The body of the loop over `headers`: the `switch` on the header name. -/
def maskHeader (headerItem : JValue) : Option JValue :=
  match headerItem with
  | .obj header =>
    match getKey "name" header with
    | some (.str name) =>
      if name = "To" then
        match getKey "value" header with
        | some (.str value) =>
          (maskEmail value).map (fun v => JValue.obj (setKey "value" (.str v) header))
        | _ => some (.obj header)
      else if name = "Subject" then
        some (.obj (setKey "value" (.str omittedSubject) header))
      else some (.obj header)
    | _ => some (.obj header)
  | other => some other

/-- The third block of `processMail`: the `headers` array. -/
def maskHeaders (mail : JObject) : Option JObject :=
  match getKey "headers" mail with
  | some (.arr headers) =>
    (headers.mapM maskHeader).map (fun hs => setKey "headers" (.arr hs) mail)
  | _ => some mail

/-- The function `processMail` of `main.go`: its three blocks in order. -/
def processMail (mail : JObject) : Option JObject := do
  let mail ← maskDestination mail
  let mail ← maskCommonHeaders mail
  maskHeaders mail

/-- The body of the loops over recipient objects: mask the string under `emailAddress`. -/
def maskRecipient (recipientItem : JValue) : Option JValue :=
  match recipientItem with
  | .obj recipient =>
    match getKey "emailAddress" recipient with
    | some (.str email) =>
      (maskEmail email).map (fun e => JValue.obj (setKey "emailAddress" (.str e) recipient))
    | _ => some (.obj recipient)
  | other => some other

/-- The function `processBounce` of `main.go`. -/
def processBounce (bounce : JObject) : Option JObject :=
  match getKey "bouncedRecipients" bounce with
  | some (.arr recipients) =>
    (recipients.mapM maskRecipient).map (fun rs => setKey "bouncedRecipients" (.arr rs) bounce)
  | _ => some bounce

/-- The function `processComplaint` of `main.go`. -/
def processComplaint (complaint : JObject) : Option JObject :=
  match getKey "complainedRecipients" complaint with
  | some (.arr recipients) =>
    (recipients.mapM maskRecipient).map
      (fun rs => setKey "complainedRecipients" (.arr rs) complaint)
  | _ => some complaint

/-- The function `processDeliveryDelay` of `main.go`. -/
def processDeliveryDelay (deliveryDelay : JObject) : Option JObject :=
  match getKey "delayedRecipients" deliveryDelay with
  | some (.arr recipients) =>
    (recipients.mapM maskRecipient).map
      (fun rs => setKey "delayedRecipients" (.arr rs) deliveryDelay)
  | _ => some deliveryDelay

/-! ## The record transformer and the batch handler -/

/-- The type `events.KinesisFirehoseEventRecord`, with the fields the handler reads. -/
structure KinesisFirehoseEventRecord where
  RecordID : String
  Data : List UInt8

/-- The result constants `events.KinesisFirehoseTransformedState...`. -/
inductive TransformedState where
  | Ok
  | Dropped
  | ProcessingFailed

/-- The type `events.KinesisFirehoseResponseRecord`; `Data = none` is the nil slice. -/
structure KinesisFirehoseResponseRecord where
  RecordID : String
  Result : TransformedState
  Data : Option (List UInt8)

/-- One of the five top-level blocks of `processRecord`: if the key holds a map, run its
redactor on it. -/
def redactKey (k : String) (f : JObject → Option JObject) (sesEvent : JObject) :
    Option JObject :=
  match getKey k sesEvent with
  | some (.obj sub) => (f sub).map (fun sub2 => setKey k (.obj sub2) sesEvent)
  | _ => some sesEvent

/-- The redaction step of `processRecord`: the five blocks in order. -/
def redactEvent (sesEvent : JObject) : Option JObject := do
  let sesEvent ← redactKey "delivery" processDelivery sesEvent
  let sesEvent ← redactKey "mail" processMail sesEvent
  let sesEvent ← redactKey "bounce" processBounce sesEvent
  let sesEvent ← redactKey "complaint" processComplaint sesEvent
  redactKey "deliveryDelay" processDeliveryDelay sesEvent

/-- The function `processRecord` of `main.go`.  The calls `json.Unmarshal` and
`json.Marshal` of the standard library are the parameters `unmarshal` and `marshal`;
the result pairs the response record with the returned error (`none` is `nil`). -/
def processRecord {ε : Type} (unmarshal : List UInt8 → Except ε JObject)
    (marshal : JObject → Except ε (List UInt8)) (record : KinesisFirehoseEventRecord) :
    Option (KinesisFirehoseResponseRecord × Option ε) :=
  match unmarshal record.Data with
  | .error err =>
    some ({ RecordID := record.RecordID, Result := .ProcessingFailed, Data := none }, some err)
  | .ok sesEvent => do
    let sesEvent ← redactEvent sesEvent
    match marshal sesEvent with
    | .error err =>
      pure ({ RecordID := record.RecordID, Result := .ProcessingFailed, Data := none },
        some err)
    | .ok modifiedData =>
      pure ({ RecordID := record.RecordID, Result := .Ok, Data := some modifiedData }, none)

/-- The function `handler` of `main.go`: the response records in input order, and the
returned error. -/
def handler {ε : Type} (unmarshal : List UInt8 → Except ε JObject)
    (marshal : JObject → Except ε (List UInt8))
    (kinesisEvent : List KinesisFirehoseEventRecord) :
    Option (List KinesisFirehoseResponseRecord × Option ε) := do
  let records ← kinesisEvent.mapM (fun record => do
    let (processedRecord, err) ← processRecord unmarshal marshal record
    match err with
    | some _ =>
      pure { RecordID := record.RecordID, Result := TransformedState.ProcessingFailed,
             Data := none }
    | none => pure processedRecord)
  pure (records, none)

/-! ## The language of a pattern -/

/-- The strings a pattern denotes. -/
def Denotes : List Item → List Char → Prop
  | [], m => m = []
  | .lit c :: rest, m => ∃ m', m = c :: m' ∧ Denotes rest m'
  | .rep cls min :: rest, m =>
    ∃ r m', m = r ++ m' ∧ min ≤ r.length ∧ (∀ c ∈ r, cls c = true) ∧ Denotes rest m'

/-- A string that as a whole has the shape of the e-mail pattern: one or more local
characters, `@`, one or more domain characters, a dot, two or more letters. -/
def EmailPattern (m : List Char) : Prop :=
  ∃ l d t, m = l ++ '@' :: (d ++ '.' :: t) ∧
    l ≠ [] ∧ (∀ c ∈ l, isLocalChar c = true) ∧
    d ≠ [] ∧ (∀ c ∈ d, isDomainChar c = true) ∧
    2 ≤ t.length ∧ (∀ c ∈ t, isLetter c = true)

/-- The masked form of an address written `local@domain`, in the words of the
specification: the first local character, asterisks for the rest of the local part, `@`,
the first domain character, asterisks for the interior, the last domain character. -/
def maskedForm (m : List Char) : List Char :=
  let localPart := m.takeWhile (· ≠ '@')
  let domainPart := (m.dropWhile (· ≠ '@')).drop 1
  localPart.take 1 ++ List.replicate (localPart.length - 1) '*' ++
    '@' :: (domainPart.take 1 ++ List.replicate (domainPart.length - 2) '*' ++
      domainPart.drop (domainPart.length - 1))

/-- Every `@` of the string is followed by one character and then an asterisk. -/
def AtStarred : List Char → Prop
  | [] => True
  | c :: cs => (c = '@' → cs[1]? = some '*') ∧ AtStarred cs

/-! ## Specification-side descriptions of the redactions -/

/-- The common shape of the array blocks of the redactors: if the key holds an array, the
element function runs on every element, in place. -/
def mapArrayAt (k : String) (f : JValue → Option JValue) (m : JObject) : Option JObject :=
  match getKey k m with
  | some (.arr xs) => (xs.mapM f).map (fun ys => setKey k (.arr ys) m)
  | _ => some m

/-- The sequence `ys` is `xs` with every string element replaced by its masked form: same
length, a string `e` at index `i` becomes `maskEmail e`, any other element stays. -/
def AddrsMasked (xs ys : List JValue) : Prop :=
  ys.length = xs.length ∧
  ∀ i : Nat,
    (∀ e, xs[i]? = some (.str e) → ∃ e2, maskEmail e = some e2 ∧ ys[i]? = some (.str e2)) ∧
    (∀ v, xs[i]? = some v → (∀ e, v ≠ .str e) → ys[i]? = some v)

/-- The sequence `ys` is `xs` with the string `emailAddress` of every mapping element
replaced by its masked form and nothing else changed. -/
def RecipientsMasked (xs ys : List JValue) : Prop :=
  ys.length = xs.length ∧
  ∀ i : Nat,
    (∀ r e, xs[i]? = some (.obj r) → getKey "emailAddress" r = some (.str e) →
      ∃ e2 r2, maskEmail e = some e2 ∧ ys[i]? = some (.obj r2) ∧
        getKey "emailAddress" r2 = some (.str e2) ∧
        (∀ k, k ≠ "emailAddress" → getKey k r2 = getKey k r) ∧
        r2.map Prod.fst = r.map Prod.fst) ∧
    (∀ v, xs[i]? = some v → (∀ r, v ≠ .obj r) → ys[i]? = some v) ∧
    (∀ r, xs[i]? = some (.obj r) → (∀ e, getKey "emailAddress" r ≠ some (.str e)) →
      ys[i]? = some (.obj r))

/-- A sample mail sub-document, used to instantiate the theorems about `processMail`. -/
def sampleMail : JObject :=
  [("source", .str "sender@example.com"),
   ("destination", .arr [.str "user1@example.com", .null]),
   ("commonHeaders", .obj [("to", .arr [.str "User One <user1@example.com>"]),
     ("subject", .str "Hello")]),
   ("headers", .arr [.obj [("name", .str "To"), ("value", .str "user1@example.com")],
     .obj [("name", .str "Subject"), ("value", .str "Hello")], .str "x"])]

/-- The blocks of `processRecord` as a list: each key with its redactor, run in order. -/
def redactAll : List (String × (JObject → Option JObject)) → JObject → Option JObject
  | [], sesEvent => some sesEvent
  | (k, f) :: rest, sesEvent => (redactKey k f sesEvent).bind (redactAll rest)

/-- The five top-level keys with their redactors, in the order of `processRecord`. -/
def redactors : List (String × (JObject → Option JObject)) :=
  [("delivery", processDelivery), ("mail", processMail), ("bounce", processBounce),
   ("complaint", processComplaint), ("deliveryDelay", processDeliveryDelay)]

/-- The value under `k` in `D2` is the result of the redactor `f` on the value under `k`
in `D` when that value is a mapping, and is the value in `D` otherwise. -/
def KeyRedacted (k : String) (f : JObject → Option JObject) (D D2 : JObject) : Prop :=
  (∀ sub, getKey k D = some (.obj sub) →
    ∃ sub2, f sub = some sub2 ∧ getKey k D2 = some (.obj sub2)) ∧
  ((∀ sub, getKey k D ≠ some (.obj sub)) → getKey k D2 = getKey k D)

/-- The document `D2` is `D` with the five redactors applied to the values of their keys,
for exactly those keys that hold a mapping; every other key reads as in `D` and the keys
are the same. -/
def Redacted (D D2 : JObject) : Prop :=
  KeyRedacted "delivery" processDelivery D D2 ∧ KeyRedacted "mail" processMail D D2 ∧
  KeyRedacted "bounce" processBounce D D2 ∧ KeyRedacted "complaint" processComplaint D D2 ∧
  KeyRedacted "deliveryDelay" processDeliveryDelay D D2 ∧
  (∀ k, k ≠ "delivery" → k ≠ "mail" → k ≠ "bounce" → k ≠ "complaint" →
    k ≠ "deliveryDelay" → getKey k D2 = getKey k D) ∧
  D2.map Prod.fst = D.map Prod.fst

/-- The failure response that `processRecord` and `handler` build for a record. -/
def failedRecord (record : KinesisFirehoseEventRecord) : KinesisFirehoseResponseRecord :=
  { RecordID := record.RecordID, Result := .ProcessingFailed, Data := none }

/-- The response of `handler` for one record, as a function of that record alone: the
response of `processRecord` when it returns no error, the failure response otherwise. -/
def respond {ε : Type} (unmarshal : List UInt8 → Except ε JObject)
    (marshal : JObject → Except ε (List UInt8)) (record : KinesisFirehoseEventRecord) :
    KinesisFirehoseResponseRecord :=
  match processRecord unmarshal marshal record with
  | some (processedRecord, none) => processedRecord
  | _ => failedRecord record

/-- A sample event document with a delivery and a mail sub-document. -/
def sampleEvent : JObject :=
  [("eventType", .str "Delivery"),
   ("mail", .obj sampleMail),
   ("delivery", .obj [("recipients", .arr [.str "user1@example.com"]),
     ("smtpResponse", .str "250 ok")]),
   ("bounce", .str "none")]

/-! ## Soundness and completeness of the matcher -/

theorem matchRep_sound (cls : Char → Bool) (k : List Char → Option Nat) :
    ∀ (s : List Char) (min n : Nat), matchRep cls k min s = some n →
      ∃ r rest j, s = r ++ rest ∧ min ≤ r.length ∧ (∀ c ∈ r, cls c = true) ∧
        k rest = some j ∧ n = r.length + j := by
  intro s
  induction s with
  | nil =>
    intro min n h
    simp only [matchRep] at h
    split at h
    · next hm => exact ⟨[], [], n, rfl, by simp [hm], by simp, h, by simp⟩
    · cases h
  | cons c cs ih =>
    intro min n h
    simp only [matchRep] at h
    split at h
    · next hc =>
      split at h
      · next n' hrec =>
        obtain ⟨r, rest, j, hs, hmin, hall, hk, hn⟩ := ih (min - 1) n' hrec
        refine ⟨c :: r, rest, j, by simp [hs], by simp; omega, ?_, hk, ?_⟩
        · intro x hx
          rcases List.mem_cons.1 hx with rfl | hx
          · exact hc
          · exact hall x hx
        · cases h
          simp [hn]; omega
      · split at h
        · next hm => exact ⟨[], c :: cs, n, rfl, by simp [hm], by simp, h, by simp⟩
        · cases h
    · split at h
      · next hm => exact ⟨[], c :: cs, n, rfl, by simp [hm], by simp, h, by simp⟩
      · cases h

theorem matchRep_zero_isSome (cls : Char → Bool) (k : List Char → Option Nat)
    (s : List Char) (h : (k s).isSome) : (matchRep cls k 0 s).isSome := by
  cases s with
  | nil => simpa [matchRep] using h
  | cons c cs =>
    simp only [matchRep]
    split
    · split
      · rfl
      · simpa using h
    · simpa using h

theorem matchRep_complete (cls : Char → Bool) (k : List Char → Option Nat) :
    ∀ (r rest : List Char) (min : Nat), (∀ c ∈ r, cls c = true) → min ≤ r.length →
      (k rest).isSome → (matchRep cls k min (r ++ rest)).isSome := by
  intro r
  induction r with
  | nil =>
    intro rest min _ hmin hk
    have : min = 0 := by simpa using hmin
    subst this
    exact matchRep_zero_isSome cls k rest hk
  | cons c r ih =>
    intro rest min hall hmin hk
    have hc : cls c = true := hall c (List.mem_cons_self _ _)
    have hrec := ih rest (min - 1) (fun x hx => hall x (List.mem_cons_of_mem _ hx))
      (by simp at hmin; omega) hk
    simp only [List.cons_append, matchRep, hc, if_true]
    obtain ⟨n, hn⟩ := Option.isSome_iff_exists.1 hrec
    simp [hn]

theorem matchItems_sound : ∀ (re : List Item) (s : List Char) (n : Nat),
    matchItems re s = some n → ∃ m rest, s = m ++ rest ∧ m.length = n ∧ Denotes re m := by
  intro re
  induction re with
  | nil =>
    intro s n h
    simp only [matchItems] at h
    cases h
    exact ⟨[], s, rfl, rfl, rfl⟩
  | cons it rest ih =>
    intro s n h
    cases it with
    | lit ch =>
      cases s with
      | nil => simp [matchItems, matchLit] at h
      | cons c cs =>
        simp only [matchItems, matchLit] at h
        split at h
        · next hc =>
          cases hk : matchItems rest cs with
          | none => simp [hk] at h
          | some j =>
            simp [hk] at h
            obtain ⟨m, post, hs, hlen, hden⟩ := ih cs j hk
            exact ⟨c :: m, post, by simp [hs], by simp [hlen, h], m, by simp [hc], hden⟩
        · cases h
    | rep cls min =>
      simp only [matchItems] at h
      obtain ⟨r, post, j, hs, hmin, hall, hk, hn⟩ := matchRep_sound cls _ s min n h
      obtain ⟨m, post', hs', hlen, hden⟩ := ih post j hk
      exact ⟨r ++ m, post', by simp [hs, hs'], by simp [hlen, hn], r, m, rfl, hmin, hall, hden⟩

theorem matchItems_complete : ∀ (re : List Item) (m : List Char), Denotes re m →
    ∀ post, (matchItems re (m ++ post)).isSome := by
  intro re
  induction re with
  | nil => intro m _ post; rfl
  | cons it rest ih =>
    intro m hden post
    cases it with
    | lit ch =>
      obtain ⟨m', rfl, hden'⟩ := hden
      have := ih m' hden' post
      obtain ⟨n, hn⟩ := Option.isSome_iff_exists.1 this
      simp [matchItems, matchLit, hn]
    | rep cls min =>
      obtain ⟨r, m', rfl, hmin, hall, hden'⟩ := hden
      simp only [matchItems, List.append_assoc]
      exact matchRep_complete cls _ r (m' ++ post) min hall hmin (ih m' hden' post)

theorem denotes_emailRegex_iff (m : List Char) : Denotes emailRegex m ↔ EmailPattern m := by
  constructor
  · rintro ⟨l, m1, rfl, hl, hlall, m2, rfl, d, m3, rfl, hd, hdall, m4, rfl, t, m5, rfl, ht, htall, rfl⟩
    refine ⟨l, d, t, by simp, ?_, hlall, ?_, hdall, ht, htall⟩
    · intro h; simp [h] at hl
    · intro h; simp [h] at hd
  · rintro ⟨l, d, t, rfl, hl, hlall, hd, hdall, ht, htall⟩
    refine ⟨l, _, rfl, ?_, hlall, _, rfl, d, _, rfl, ?_, hdall, _, rfl, t, [], by simp, ht, htall, rfl⟩
    · exact List.length_pos.2 hl
    · exact List.length_pos.2 hd

theorem findAllFrom_skip_all (re : List Item) :
    ∀ (s : List Char) (skip : Nat), s.length ≤ skip → findAllFrom re s skip = [] := by
  intro s
  induction s with
  | nil => intro skip _; cases skip <;> rfl
  | cons c cs ih =>
    intro skip h
    cases skip with
    | zero => simp at h
    | succ k =>
      simp only [findAllFrom]
      exact ih k (by simpa using h)

theorem findAllFrom_eq_nil (re : List Item) :
    ∀ (s : List Char), (∀ pre t, s = pre ++ t → matchItems re t = none) →
      ∀ skip, findAllFrom re s skip = [] := by
  intro s
  induction s with
  | nil => intro _ skip; cases skip <;> rfl
  | cons c cs ih =>
    intro h skip
    have hcs : ∀ pre t, cs = pre ++ t → matchItems re t = none :=
      fun pre t ht => h (c :: pre) t (by simp [ht])
    cases skip with
    | zero =>
      simp only [findAllFrom, h [] (c :: cs) rfl]
      exact ih hcs 0
    | succ k =>
      simp only [findAllFrom]
      exact ih hcs k

theorem findAllString_eq_nil_of_no_match (s : List Char)
    (h : ∀ pre m post, s = pre ++ m ++ post → ¬ EmailPattern m) :
    findAllString emailRegex s = [] := by
  unfold findAllString
  apply findAllFrom_eq_nil
  intro pre t ht
  cases hm : matchItems emailRegex t with
  | none => rfl
  | some n =>
    obtain ⟨m, post, hs, _, hden⟩ := matchItems_sound emailRegex t n hm
    exact absurd ((denotes_emailRegex_iff m).1 hden) (h pre m post (by simp [ht, hs]))

theorem emailPattern_mem_at (m : List Char) (h : EmailPattern m) : '@' ∈ m := by
  obtain ⟨l, d, t, rfl, _⟩ := h
  simp

/-- C1. A string with no substring of the shape of the e-mail pattern is returned
unchanged by `maskEmail`; in particular `"a@bc"`, `"a@b"`, `"user1@"`, `"@example.com"`,
`"user1"` and the empty string are returned unchanged. -/
theorem maskEmail_identity_without_match :
    (∀ s : String, (∀ pre m post, s.data = pre ++ m ++ post → ¬ EmailPattern m) →
      maskEmail s = some s) ∧
    maskEmail "a@bc" = some "a@bc" ∧ maskEmail "a@b" = some "a@b" ∧
    maskEmail "user1@" = some "user1@" ∧ maskEmail "@example.com" = some "@example.com" ∧
    maskEmail "user1" = some "user1" ∧ maskEmail "" = some "" := by
  refine ⟨?_, by decide, by decide, by decide, by decide, by decide, by decide⟩
  intro s h
  simp [maskEmail, findAllString_eq_nil_of_no_match s.data h]

/-- Witness for C1 at the string `"user1"`, which has no `@` and hence no match. -/
theorem maskEmail_identity_without_match_witness :
    (∀ pre m post, ("user1" : String).data = pre ++ m ++ post → ¬ EmailPattern m) ∧
      maskEmail "user1" = some "user1" :=
  have h : ∀ pre m post, ("user1" : String).data = pre ++ m ++ post → ¬ EmailPattern m := by
    intro pre m post hs hm
    have hat : '@' ∈ ("user1" : String).data := by
      rw [hs]; simp [emailPattern_mem_at m hm]
    revert hat
    decide
  ⟨h, maskEmail_identity_without_match.1 "user1" h⟩

/-! ## The exact result of the matcher on a whole address -/

theorem matchRep_extend (cls : Char → Bool) (k : List Char → Option Nat) :
    ∀ (r rest : List Char) (min j : Nat), (∀ c ∈ r, cls c = true) →
      matchRep cls k (min - r.length) rest = some j →
      matchRep cls k min (r ++ rest) = some (r.length + j) := by
  intro r
  induction r with
  | nil => intro rest min j _ h; simpa using h
  | cons c r ih =>
    intro rest min j hall h
    have hc : cls c = true := hall c (List.mem_cons_self _ _)
    have e : min - 1 - r.length = min - (c :: r).length := by
      simp only [List.length_cons]; omega
    have hrec := ih rest (min - 1) j (fun x hx => hall x (List.mem_cons_of_mem _ hx))
      (by rw [e]; exact h)
    simp only [List.cons_append, matchRep, List.append_eq, hc, if_true, hrec, List.length_cons]
    congr 1; omega

theorem matchRep_eq_none (cls : Char → Bool) (k : List Char → Option Nat) :
    ∀ (r : List Char) (min : Nat), (∀ c ∈ r, cls c = true) →
      (∀ pre t, r = pre ++ t → k t = none) → matchRep cls k min r = none := by
  intro r
  induction r with
  | nil =>
    intro min _ hk
    simp [matchRep, hk [] [] rfl]
  | cons c r ih =>
    intro min hall hk
    have hc : cls c = true := hall c (List.mem_cons_self _ _)
    have hrec := ih (min - 1) (fun x hx => hall x (List.mem_cons_of_mem _ hx))
      (fun pre t ht => hk (c :: pre) t (by simp [ht]))
    simp [matchRep, hc, hrec, hk [] (c :: r) rfl]

theorem isLetter_isDomainChar (c : Char) (h : isLetter c = true) : isDomainChar c = true := by
  simp [isDomainChar, h]

theorem isDomainChar_isLocalChar (c : Char) (h : isDomainChar c = true) :
    isLocalChar c = true := by
  simp only [isDomainChar, Bool.or_eq_true] at h
  simp only [isLocalChar, Bool.or_eq_true]
  tauto

theorem isLetter_ne_dot (c : Char) (h : isLetter c = true) : c ≠ '.' := by
  rintro rfl
  revert h
  decide

theorem matchItems_lit (c : Char) (rest : List Item) (s : List Char) :
    matchItems (.lit c :: rest) s = matchLit c (matchItems rest) s := rfl

theorem matchItems_rep (cls : Char → Bool) (min : Nat) (rest : List Item) (s : List Char) :
    matchItems (.rep cls min :: rest) s = matchRep cls (matchItems rest) min s := rfl

theorem matchItems_emailRegex_whole (l d t : List Char)
    (hl : l ≠ []) (hlall : ∀ c ∈ l, isLocalChar c = true)
    (hd : d ≠ []) (hdall : ∀ c ∈ d, isDomainChar c = true)
    (ht : 2 ≤ t.length) (htall : ∀ c ∈ t, isLetter c = true) :
    matchItems emailRegex (l ++ '@' :: (d ++ '.' :: t)) =
      some (l.length + (1 + (d.length + (1 + t.length)))) := by
  have hl1 : 1 - l.length = 0 := by have := List.length_pos.2 hl; omega
  have hd1 : 1 - d.length = 0 := by have := List.length_pos.2 hd; omega
  have ht2 : 2 - t.length = 0 := by omega
  -- the letters of the top-level domain, up to the end of the input
  have h5 : matchRep isLetter (matchItems []) 2 (t ++ []) = some (t.length + 0) :=
    matchRep_extend isLetter _ t [] 2 0 htall (by simp [ht2, matchRep, matchItems])
  have h4 : matchItems [.lit '.', .rep isLetter 2] ('.' :: t) = some (1 + t.length) := by
    simp only [matchItems_lit, matchItems_rep, matchLit, if_true]
    rw [List.append_nil] at h5
    rw [h5]
    simp [Nat.add_comm]
  -- the greedy domain run first swallows the dot and the letters, and finds no dot after
  have hnone : matchRep isDomainChar (matchItems [.lit '.', .rep isLetter 2]) 0 t = none := by
    apply matchRep_eq_none _ _ t 0 (fun c hc => isLetter_isDomainChar c (htall c hc))
    intro pre u hu
    cases u with
    | nil => rfl
    | cons x xs =>
      have hx : isLetter x = true := htall x (by simp [hu])
      simp [matchItems, matchLit, isLetter_ne_dot x hx]
  have h3 : matchRep isDomainChar (matchItems [.lit '.', .rep isLetter 2]) 0 ('.' :: t) =
      some (1 + t.length) := by
    have hdot : isDomainChar '.' = true := by decide
    simp only [matchRep, hdot, if_true, Nat.zero_sub, hnone]
    exact h4
  have h2 : matchRep isDomainChar (matchItems [.lit '.', .rep isLetter 2]) 1 (d ++ '.' :: t) =
      some (d.length + (1 + t.length)) :=
    matchRep_extend isDomainChar _ d ('.' :: t) 1 _ hdall (by rw [hd1]; exact h3)
  have h1 : matchRep isLocalChar (matchItems [.lit '@', .rep isDomainChar 1, .lit '.',
      .rep isLetter 2]) 0 ('@' :: (d ++ '.' :: t)) = some (1 + (d.length + (1 + t.length))) := by
    have hat : isLocalChar '@' = false := by decide
    simp only [matchRep, hat]
    simp only [matchItems_lit, matchItems_rep, matchLit, if_true, h2]
    simp [Nat.add_comm]
  exact matchRep_extend isLocalChar _ l _ 1 _ hlall (by rw [hl1]; exact h1)

theorem findAllString_whole (m : List Char) (h : EmailPattern m) :
    findAllString emailRegex m = [m] := by
  obtain ⟨l, d, t, rfl, hl, hlall, hd, hdall, ht, htall⟩ := h
  have hm := matchItems_emailRegex_whole l d t hl hlall hd hdall ht htall
  obtain ⟨l0, ls, rfl⟩ := List.exists_cons_of_ne_nil hl
  simp only [List.cons_append] at hm ⊢
  have hlen : ∃ n, (l0 :: ls).length + (1 + (d.length + (1 + t.length))) = n + 1 ∧
      n = (ls ++ '@' :: (d ++ '.' :: t)).length :=
    ⟨ls.length + (1 + (d.length + (1 + t.length))), by simp only [List.length_cons]; omega,
      by simp; omega⟩
  obtain ⟨n, hn, hn'⟩ := hlen
  rw [hn] at hm
  simp only [findAllString, findAllFrom, hm]
  rw [findAllFrom_skip_all _ _ _ (by omega)]
  congr 1
  rw [List.take_of_length_le]
  simp [hn']

/-! ## Splitting a matched address at its `@` -/

theorem split_of_not_mem (sep : Char) : ∀ (s : List Char), sep ∉ s → split sep s = [s] := by
  intro s
  induction s with
  | nil => intro _; rfl
  | cons c cs ih =>
    intro h
    have hc : c ≠ sep := fun e => h (by simp [e])
    have hcs : sep ∉ cs := fun e => h (List.mem_cons_of_mem _ e)
    simp [split, hc, ih hcs]

theorem split_append_sep (sep : Char) (r : List Char) :
    ∀ (l : List Char), sep ∉ l → split sep (l ++ sep :: r) = l :: split sep r := by
  intro l
  induction l with
  | nil => intro _; simp [split]
  | cons c cs ih =>
    intro h
    have hc : c ≠ sep := fun e => h (by simp [e])
    have hcs : sep ∉ cs := fun e => h (List.mem_cons_of_mem _ e)
    simp [split, hc, ih hcs]

theorem append_sep_unique (sep : Char) (r r2 : List Char) (hr : sep ∉ r) :
    ∀ (l l2 : List Char), sep ∉ l → l ++ sep :: r = l2 ++ sep :: r2 → l = l2 ∧ r = r2 := by
  intro l
  induction l with
  | nil =>
    intro l2 _ h
    cases l2 with
    | nil => simpa using h
    | cons x l2 =>
      simp only [List.nil_append, List.cons_append, List.cons.injEq] at h
      exact absurd (h.2 ▸ (by simp : sep ∈ l2 ++ sep :: r2)) hr
  | cons a l ih =>
    intro l2 hl h
    cases l2 with
    | nil =>
      simp only [List.nil_append, List.cons_append, List.cons.injEq] at h
      exact absurd (by simp [h.1]) hl
    | cons x l2 =>
      simp only [List.cons_append, List.cons.injEq] at h
      obtain ⟨e1, e2⟩ := ih l2 (fun e => hl (List.mem_cons_of_mem _ e)) h.2
      exact ⟨by rw [h.1, e1], e2⟩

theorem not_mem_at_of_local (l : List Char) (h : ∀ c ∈ l, isLocalChar c = true) : '@' ∉ l := by
  intro hm
  have := h _ hm
  revert this
  decide

/-- The shape of a string that matches the e-mail pattern: a non-empty local part without
`@`, then `@`, then a domain part of at least four characters without `@`. -/
theorem emailPattern_shape (m : List Char) (h : EmailPattern m) :
    ∃ l0 ls d0 dm dl, m = (l0 :: ls) ++ '@' :: (d0 :: dm ++ [dl]) ∧
      '@' ∉ l0 :: ls ∧ '@' ∉ d0 :: dm ++ [dl] ∧ 2 ≤ dm.length ∧
      isLocalChar l0 = true ∧ isDomainChar d0 = true ∧ isLetter dl = true := by
  obtain ⟨l, d, t, rfl, hl, hlall, hd, hdall, ht, htall⟩ := h
  obtain ⟨l0, ls, rfl⟩ := List.exists_cons_of_ne_nil hl
  obtain ⟨d0, ds, rfl⟩ := List.exists_cons_of_ne_nil hd
  have htne : t ≠ [] := by intro e; simp [e] at ht
  obtain ⟨ti, dl, rfl⟩ : ∃ ti dl, t = ti ++ [dl] :=
    ⟨t.dropLast, t.getLast htne, (List.dropLast_append_getLast htne).symm⟩
  have hdom : ∀ c ∈ d0 :: ds ++ '.' :: (ti ++ [dl]), isLocalChar c = true := by
    intro c hc
    apply isDomainChar_isLocalChar
    rcases List.mem_append.1 hc with hc | hc
    · exact hdall c hc
    · rcases List.mem_cons.1 hc with rfl | hc
      · decide
      · exact isLetter_isDomainChar c (htall c hc)
  refine ⟨l0, ls, d0, ds ++ '.' :: ti, dl, by simp, not_mem_at_of_local _ hlall, ?_, ?_,
    hlall l0 (List.mem_cons_self _ _), hdall d0 (List.mem_cons_self _ _),
    htall dl (by simp)⟩
  · have := not_mem_at_of_local _ hdom
    simpa using this
  · simp at ht ⊢; omega

theorem maskOne_shape (l0 : Char) (ls : List Char) (d0 : Char) (dm : List Char) (dl : Char)
    (hl : '@' ∉ l0 :: ls) (hd : '@' ∉ d0 :: dm ++ [dl]) (hdm : 1 ≤ dm.length) :
    maskOne ((l0 :: ls) ++ '@' :: (d0 :: dm ++ [dl])) =
      some (l0 :: List.replicate ls.length '*' ++
        '@' :: (d0 :: List.replicate dm.length '*' ++ [dl])) := by
  have hsplit : split '@' ((l0 :: ls) ++ '@' :: (d0 :: dm ++ [dl])) =
      [l0 :: ls, d0 :: dm ++ [dl]] := by
    rw [split_append_sep _ _ _ hl, split_of_not_mem _ _ hd]
  unfold maskOne
  rw [hsplit]
  have hlast : (d0 :: dm ++ [dl])[(d0 :: dm ++ [dl]).length - 1]? = some dl := by
    have : (d0 :: dm ++ [dl]).length - 1 = (d0 :: dm).length := by simp
    rw [this, List.getElem?_append_right (by simp)]
    simp
  have hlen2 : (d0 :: dm ++ [dl]).length > 2 := by simp; omega
  have hne : dm ≠ [] := by intro e; simp [e] at hdm
  cases ls with
  | nil =>
    simp only [hlast, hlen2]
    simp [hne]
  | cons x xs =>
    simp only [hlast, hlen2]
    simp [hne]

theorem takeWhile_ne_append_sep (sep : Char) (r : List Char) :
    ∀ (l : List Char), sep ∉ l → (l ++ sep :: r).takeWhile (· ≠ sep) = l ∧
      (l ++ sep :: r).dropWhile (· ≠ sep) = sep :: r := by
  intro l
  induction l with
  | nil => intro _; simp
  | cons c cs ih =>
    intro h
    have hc : c ≠ sep := fun e => h (by simp [e])
    have hcs : sep ∉ cs := fun e => h (List.mem_cons_of_mem _ e)
    simpa [hc] using ih hcs

theorem maskedForm_shape (l0 : Char) (ls : List Char) (d0 : Char) (dm : List Char) (dl : Char)
    (hl : '@' ∉ l0 :: ls) :
    maskedForm ((l0 :: ls) ++ '@' :: (d0 :: dm ++ [dl])) =
      l0 :: List.replicate ls.length '*' ++
        '@' :: (d0 :: List.replicate dm.length '*' ++ [dl]) := by
  obtain ⟨h1, h2⟩ := takeWhile_ne_append_sep '@' (d0 :: dm ++ [dl]) (l0 :: ls) hl
  unfold maskedForm
  simp only [h1, h2]
  have : (d0 :: dm ++ [dl]).length - 1 = (d0 :: dm).length := by simp
  simp [this]

theorem maskOne_eq_maskedForm (m : List Char) (h : EmailPattern m) :
    maskOne m = some (maskedForm m) := by
  obtain ⟨l0, ls, d0, dm, dl, rfl, hl, hd, hdm, _⟩ := emailPattern_shape m h
  rw [maskOne_shape l0 ls d0 dm dl hl hd (by omega), maskedForm_shape l0 ls d0 dm dl hl]

/-! ## maskEmail on one address and on several -/

theorem mapM_eq_some_map {α β : Type} (f : α → Option β) (g : α → β) :
    ∀ (xs : List α), (∀ x ∈ xs, f x = some (g x)) → xs.mapM f = some (xs.map g) := by
  intro xs
  induction xs with
  | nil => intro _; rfl
  | cons x xs ih =>
    intro h
    rw [List.mapM_cons, h x (List.mem_cons_self _ _),
      ih (fun y hy => h y (List.mem_cons_of_mem _ hy))]
    rfl

theorem intercalate_cons_cons (sep x y : List Char) (r : List (List Char)) :
    List.intercalate sep (x :: y :: r) = x ++ sep ++ List.intercalate sep (y :: r) := by
  simp [List.intercalate, List.intersperse]

theorem intercalate_singleton (sep x : List Char) : List.intercalate sep [x] = x := by
  simp [List.intercalate, List.intersperse]

theorem findAllFrom_sound (re : List Item) :
    ∀ (s : List Char) (skip : Nat), ∀ m ∈ findAllFrom re s skip, Denotes re m := by
  intro s
  induction s with
  | nil => intro skip m hm; cases skip <;> simp [findAllFrom] at hm
  | cons c cs ih =>
    intro skip m hm
    cases skip with
    | succ k => exact ih k m (by simpa [findAllFrom] using hm)
    | zero =>
      simp only [findAllFrom] at hm
      split at hm
      · next n hn =>
        rcases List.mem_cons.1 hm with rfl | hm
        · obtain ⟨m', rest, hs, hlen, hden⟩ := matchItems_sound re _ _ hn
          have : List.take (n + 1) (c :: cs) = m' := by
            rw [hs]; exact List.take_left' hlen
          rw [this]; exact hden
        · exact ih n m hm
      · exact ih 0 m hm

theorem findAllString_sound (s : List Char) :
    ∀ m ∈ findAllString emailRegex s, EmailPattern m :=
  fun m hm => (denotes_emailRegex_iff m).1 (findAllFrom_sound emailRegex s 0 m hm)

/-- The value of `maskEmail` when the pattern search finds at least one address. -/
theorem maskEmail_of_matches (s : String) (h : findAllString emailRegex s.data ≠ []) :
    maskEmail s = some ⟨List.intercalate [',']
      ((findAllString emailRegex s.data).map maskedForm)⟩ := by
  have hm := mapM_eq_some_map maskOne maskedForm (findAllString emailRegex s.data)
    (fun m hm => maskOne_eq_maskedForm m (findAllString_sound s.data m hm))
  have hlen : (findAllString emailRegex s.data).length ≠ 0 := by
    simpa [List.length_eq_zero] using h
  unfold maskEmail
  simp only [hlen, if_false, hm, Option.map_some']

/-- C2. For a string that as a whole matches the e-mail pattern, written
`loc ++ "@" ++ dom`, `maskEmail` returns the first local character, `len(loc) - 1`
asterisks, `@`, the first domain character, `len(dom) - 2` asterisks and the last domain
character; the result has the length of the input; and
`maskEmail("user1@example.com") = "u****@e*********m"`. -/
theorem maskEmail_whole_address :
    (∀ s loc dom : List Char, EmailPattern s → s = loc ++ '@' :: dom →
      ∃ l0 d0 dl, loc.head? = some l0 ∧ dom.head? = some d0 ∧ dom.getLast? = some dl ∧
        maskEmail ⟨s⟩ = some ⟨l0 :: List.replicate (loc.length - 1) '*' ++
          '@' :: (d0 :: List.replicate (dom.length - 2) '*' ++ [dl])⟩ ∧
        ∀ r, maskEmail ⟨s⟩ = some r → r.length = s.length) ∧
    maskEmail "user1@example.com" = some "u****@e*********m" := by
  refine ⟨?_, by decide⟩
  intro s loc dom hs hsplit
  obtain ⟨l0, ls, d0, dm, dl, rfl, hl, hd, hdm, _⟩ := emailPattern_shape s hs
  obtain ⟨rfl, rfl⟩ := append_sep_unique '@' _ _ hd _ _ hl hsplit
  have hfind := findAllString_whole _ hs
  have hval : maskEmail ⟨(l0 :: ls) ++ '@' :: (d0 :: dm ++ [dl])⟩ =
      some ⟨l0 :: List.replicate ls.length '*' ++
        '@' :: (d0 :: List.replicate dm.length '*' ++ [dl])⟩ := by
    rw [maskEmail_of_matches _ (by rw [hfind]; exact List.cons_ne_nil _ _)]
    simp only [hfind, List.map_cons, List.map_nil, intercalate_singleton]
    rw [maskedForm_shape l0 ls d0 dm dl hl]
  refine ⟨l0, d0, dl, rfl, rfl, List.getLast?_concat (d0 :: dm), ?_, ?_⟩
  · rw [hval]
    simp
  · intro r hr
    rw [hval] at hr
    cases hr
    simp [String.length]

/-- Witness for C2 at `"ab@c.de"`, with local part `"ab"` and domain part `"c.de"`. -/
theorem maskEmail_whole_address_witness :
    EmailPattern ['a', 'b', '@', 'c', '.', 'd', 'e'] ∧
      ∃ l0 d0 dl, ['a', 'b'].head? = some l0 ∧ ['c', '.', 'd', 'e'].head? = some d0 ∧
        ['c', '.', 'd', 'e'].getLast? = some dl ∧
        maskEmail ⟨['a', 'b', '@', 'c', '.', 'd', 'e']⟩ =
          some ⟨l0 :: List.replicate (['a', 'b'].length - 1) '*' ++
            '@' :: (d0 :: List.replicate (['c', '.', 'd', 'e'].length - 2) '*' ++ [dl])⟩ ∧
        ∀ r, maskEmail ⟨['a', 'b', '@', 'c', '.', 'd', 'e']⟩ = some r →
          r.length = ['a', 'b', '@', 'c', '.', 'd', 'e'].length :=
  have h : EmailPattern ['a', 'b', '@', 'c', '.', 'd', 'e'] :=
    ⟨['a', 'b'], ['c'], ['d', 'e'], rfl, by simp, by decide, by simp, by decide, by decide,
      by decide⟩
  ⟨h, maskEmail_whole_address.1 _ ['a', 'b'] ['c', '.', 'd', 'e'] h rfl⟩

theorem comma_not_mem_maskedForm (m : List Char) (h : EmailPattern m) :
    ',' ∉ maskedForm m := by
  obtain ⟨l0, ls, d0, dm, dl, rfl, hl, _, _, h0, h1, h2⟩ := emailPattern_shape m h
  rw [maskedForm_shape l0 ls d0 dm dl hl]
  have e0 : ',' ≠ l0 := by rintro rfl; revert h0; decide
  have e1 : ',' ≠ d0 := by rintro rfl; revert h1; decide
  have e2 : ',' ≠ dl := by rintro rfl; revert h2; decide
  simp [e0, e1, e2, List.mem_replicate]

theorem count_sep_intercalate (sep : Char) :
    ∀ (xs : List (List Char)), (∀ x ∈ xs, sep ∉ x) → xs ≠ [] →
      (List.intercalate [sep] xs).count sep = xs.length - 1 := by
  intro xs
  induction xs with
  | nil => intro _ h; exact absurd rfl h
  | cons x xs ih =>
    intro hall _
    have hx : List.count sep x = 0 := List.count_eq_zero.2 (hall x (List.mem_cons_self _ _))
    cases xs with
    | nil => simp [intercalate_singleton, hx]
    | cons y r =>
      rw [intercalate_cons_cons, List.count_append, List.count_append, hx,
        ih (fun z hz => hall z (List.mem_cons_of_mem _ hz)) (List.cons_ne_nil _ _)]
      simp
      omega

/-- C3. When the pattern search on `s` finds the addresses `m_1, ..., m_N` with `N ≥ 1`
(each of them a string matching the e-mail pattern), `maskEmail s` is the masked forms of
`m_1, ..., m_N` joined by single commas in that order; the output has exactly `N - 1`
commas; and it depends on `s` only through the matches, so no text outside them is kept.
`maskEmail("User One <user1@example.com>, user2@example.com")` is
`"u****@e*********m,u****@e*********m"`. -/
theorem maskEmail_joins_masked_matches :
    (∀ (s : String) (ms : List (List Char)),
      findAllString emailRegex s.data = ms → ms ≠ [] →
        (∀ m ∈ ms, EmailPattern m ∧ maskEmail ⟨m⟩ = some ⟨maskedForm m⟩) ∧
        maskEmail s = some ⟨List.intercalate [','] (ms.map maskedForm)⟩ ∧
        (List.intercalate [','] (ms.map maskedForm)).count ',' = ms.length - 1 ∧
        ∀ s2 : String, findAllString emailRegex s2.data = ms → maskEmail s2 = maskEmail s) ∧
    maskEmail "User One <user1@example.com>, user2@example.com" =
      some "u****@e*********m,u****@e*********m" := by
  refine ⟨?_, by decide⟩
  intro s ms hfind hne
  have hval : ∀ s2 : String, findAllString emailRegex s2.data = ms →
      maskEmail s2 = some ⟨List.intercalate [','] (ms.map maskedForm)⟩ := by
    intro s2 h2
    rw [maskEmail_of_matches s2 (by rw [h2]; exact hne), h2]
  have hpat : ∀ m ∈ ms, EmailPattern m := by
    intro m hm
    exact findAllString_sound s.data m (by rw [hfind]; exact hm)
  refine ⟨?_, hval s hfind, ?_, ?_⟩
  · intro m hm
    refine ⟨hpat m hm, ?_⟩
    have hw := findAllString_whole m (hpat m hm)
    rw [maskEmail_of_matches ⟨m⟩ (by rw [hw]; exact List.cons_ne_nil _ _)]
    simp only [hw, List.map_cons, List.map_nil, intercalate_singleton]
  · rw [count_sep_intercalate ',' _ _ (by simpa using hne), List.length_map]
    intro x hx
    obtain ⟨m, hm, rfl⟩ := List.mem_map.1 hx
    exact comma_not_mem_maskedForm m (hpat m hm)
  · intro s2 h2
    rw [hval s2 h2, hval s hfind]

/-- Witness for C3 at a string holding two addresses and a display name. -/
theorem maskEmail_joins_masked_matches_witness :
    findAllString emailRegex ("User One <user1@example.com>, user2@example.com" : String).data =
        ["user1@example.com".data, "user2@example.com".data] ∧
      maskEmail "User One <user1@example.com>, user2@example.com" =
        some ⟨List.intercalate [',']
          (["user1@example.com".data, "user2@example.com".data].map maskedForm)⟩ :=
  have h : findAllString emailRegex
      ("User One <user1@example.com>, user2@example.com" : String).data =
        ["user1@example.com".data, "user2@example.com".data] := by decide
  ⟨h, (maskEmail_joins_masked_matches.1 _ _ h (List.cons_ne_nil _ _)).2.1⟩

/-! ## A masked output holds no address -/

theorem atStarred_of_not_mem : ∀ (a : List Char), '@' ∉ a → AtStarred a := by
  intro a
  induction a with
  | nil => intro _; trivial
  | cons c cs ih =>
    intro h
    exact ⟨fun e => absurd (by simp [e]) h, ih (fun e => h (List.mem_cons_of_mem _ e))⟩

theorem atStarred_append : ∀ (a b : List Char), AtStarred a → AtStarred b →
    AtStarred (a ++ b) := by
  intro a
  induction a with
  | nil => intro b _ hb; exact hb
  | cons c cs ih =>
    intro b ha hb
    refine ⟨fun e => ?_, ih b ha.2 hb⟩
    have h1 := ha.1 e
    have hlt : 1 < cs.length := by
      by_contra hcon
      rw [List.getElem?_eq_none (by omega)] at h1
      cases h1
    show (cs ++ b)[1]? = some '*'
    rw [List.getElem?_append_left hlt]
    exact h1

theorem atStarred_of_append : ∀ (p q : List Char), AtStarred (p ++ q) → AtStarred q := by
  intro p
  induction p with
  | nil => intro q h; exact h
  | cons c cs ih => intro q h; exact ih q h.2

theorem atStarred_maskedForm (m : List Char) (h : EmailPattern m) :
    AtStarred (maskedForm m) := by
  obtain ⟨l0, ls, d0, dm, dl, rfl, hl, hd, hdm, h0, h1, h2⟩ := emailPattern_shape m h
  rw [maskedForm_shape l0 ls d0 dm dl hl]
  have e0 : '@' ≠ l0 := by rintro rfl; revert h0; decide
  have e1 : '@' ≠ d0 := by rintro rfl; revert h1; decide
  have e2 : '@' ≠ dl := by rintro rfl; revert h2; decide
  obtain ⟨n, hn⟩ : ∃ n, dm.length = n + 1 := ⟨dm.length - 1, by omega⟩
  apply atStarred_append
  · apply atStarred_of_not_mem
    simp [e0, List.mem_replicate]
  · refine ⟨fun _ => by simp [hn, List.replicate_succ], ?_⟩
    apply atStarred_of_not_mem
    simp [e1, e2, List.mem_replicate]

theorem atStarred_intercalate :
    ∀ (xs : List (List Char)), (∀ x ∈ xs, AtStarred x) → AtStarred (List.intercalate [','] xs) := by
  intro xs
  induction xs with
  | nil => intro _; trivial
  | cons x xs ih =>
    intro hall
    cases xs with
    | nil => rw [intercalate_singleton]; exact hall x (List.mem_cons_self _ _)
    | cons y r =>
      rw [intercalate_cons_cons]
      apply atStarred_append
      · apply atStarred_append _ _ (hall x (List.mem_cons_self _ _))
        exact atStarred_of_not_mem _ (by decide)
      · exact ih (fun z hz => hall z (List.mem_cons_of_mem _ hz))

theorem atStarred_no_pattern (o : List Char) (ho : AtStarred o) :
    ∀ pre m post, o = pre ++ m ++ post → ¬ EmailPattern m := by
  rintro pre m post rfl ⟨l, d, t, rfl, _, _, hd, hdall, ht, htall⟩
  obtain ⟨d0, ds, rfl⟩ := List.exists_cons_of_ne_nil hd
  -- the character after the first domain character is a domain character
  obtain ⟨y, rest, hy, hrest⟩ : ∃ y rest, isDomainChar y = true ∧
      ds ++ '.' :: t = y :: rest := by
    cases ds with
    | nil => exact ⟨'.', t, by decide, rfl⟩
    | cons d1 ds => exact ⟨d1, ds ++ '.' :: t, hdall d1 (by simp), rfl⟩
  have hsuf : AtStarred ('@' :: d0 :: y :: (rest ++ post)) := by
    apply atStarred_of_append (pre ++ l)
    have e : pre ++ (l ++ '@' :: (d0 :: ds ++ '.' :: t)) ++ post =
        pre ++ l ++ '@' :: d0 :: y :: (rest ++ post) := by
      have : d0 :: ds ++ '.' :: t = d0 :: y :: rest := by simp [hrest]
      rw [this]; simp
    rw [← e]; exact ho
  have hstar := hsuf.1 rfl
  simp at hstar
  subst hstar
  revert hy
  decide

/-- C4 as stated fails: no input is altered by a second masking. -/
theorem maskEmail_second_masking_never_differs :
    ¬ ∃ s : String, (maskEmail s).bind maskEmail ≠ maskEmail s := by
  rintro ⟨s, hs⟩
  apply hs
  by_cases h : findAllString emailRegex s.data = []
  · have : maskEmail s = some s := by simp [maskEmail, h]
    rw [this]; exact this
  · rw [maskEmail_of_matches s h]
    show maskEmail _ = _
    have hnil := findAllString_eq_nil_of_no_match _
      (atStarred_no_pattern _ (atStarred_intercalate
        ((findAllString emailRegex s.data).map maskedForm) (by
          intro x hx
          obtain ⟨m, hm, rfl⟩ := List.mem_map.1 hx
          exact atStarred_maskedForm m (findAllString_sound s.data m hm))))
    simp [maskEmail, hnil]

/-- C4 (amended). `maskEmail` is idempotent: it returns a result on every string, and
masking that result again returns it unchanged, because a masked address has an asterisk
as the second character of its domain and so never matches the pattern again. -/
theorem maskEmail_idempotent (s : String) :
    ∃ r, maskEmail s = some r ∧ maskEmail r = some r := by
  by_cases h : findAllString emailRegex s.data = []
  · have : maskEmail s = some s := by simp [maskEmail, h]
    exact ⟨s, this, this⟩
  · refine ⟨_, maskEmail_of_matches s h, ?_⟩
    have hnil := findAllString_eq_nil_of_no_match _
      (atStarred_no_pattern _ (atStarred_intercalate
        ((findAllString emailRegex s.data).map maskedForm) (by
          intro x hx
          obtain ⟨m, hm, rfl⟩ := List.mem_map.1 hx
          exact atStarred_maskedForm m (findAllString_sound s.data m hm))))
    simp [maskEmail, hnil]

/-! ## Maps and element-wise loops -/

theorem getKey_setKey_same (k : String) (v : JValue) :
    ∀ (m : JObject), getKey k (setKey k v m) = some v := by
  intro m
  induction m with
  | nil => simp [setKey, getKey]
  | cons p rest ih =>
    obtain ⟨k2, v2⟩ := p
    by_cases h : k2 = k
    · simp [setKey, getKey, h]
    · simp [setKey, getKey, h, ih]

theorem getKey_setKey_ne (k k2 : String) (v : JValue) (hne : k2 ≠ k) :
    ∀ (m : JObject), getKey k2 (setKey k v m) = getKey k2 m := by
  intro m
  induction m with
  | nil => simp [setKey, getKey, Ne.symm hne]
  | cons p rest ih =>
    obtain ⟨k3, v3⟩ := p
    by_cases h : k3 = k
    · subst h
      simp [setKey, getKey, Ne.symm hne]
    · simp only [setKey, h, if_false, getKey, ih]

theorem keys_setKey_of_getKey (k : String) (v w : JValue) :
    ∀ (m : JObject), getKey k m = some w → (setKey k v m).map Prod.fst = m.map Prod.fst := by
  intro m
  induction m with
  | nil => intro h; simp [getKey] at h
  | cons p rest ih =>
    obtain ⟨k2, v2⟩ := p
    intro h
    by_cases hk : k2 = k
    · simp [setKey, hk]
    · simp only [getKey, hk, if_false] at h
      simp [setKey, hk, ih h]

theorem mapM_total {α β : Type} (f : α → Option β) (hf : ∀ x, ∃ y, f x = some y) :
    ∀ (xs : List α), ∃ ys, xs.mapM f = some ys := by
  intro xs
  induction xs with
  | nil => exact ⟨[], rfl⟩
  | cons x xs ih =>
    obtain ⟨y, hy⟩ := hf x
    obtain ⟨ys, hys⟩ := ih
    exact ⟨y :: ys, by rw [List.mapM_cons, hy, hys]; rfl⟩

theorem mapM_some_cons {α β : Type} (f : α → Option β) (x : α) (xs : List α) (zs : List β)
    (h : (x :: xs).mapM f = some zs) :
    ∃ y ys, f x = some y ∧ xs.mapM f = some ys ∧ zs = y :: ys := by
  rw [List.mapM_cons] at h
  cases hy : f x with
  | none => rw [hy] at h; cases h
  | some y =>
    cases hys : xs.mapM f with
    | none => rw [hy, hys] at h; cases h
    | some ys =>
      rw [hy, hys] at h
      cases h
      exact ⟨y, ys, rfl, rfl, rfl⟩

theorem mapM_some_length {α β : Type} (f : α → Option β) :
    ∀ (xs : List α) (ys : List β), xs.mapM f = some ys → ys.length = xs.length := by
  intro xs
  induction xs with
  | nil => intro ys h; cases h; rfl
  | cons x xs ih =>
    intro zs h
    obtain ⟨y, ys, _, hys, rfl⟩ := mapM_some_cons f x xs zs h
    simp [ih ys hys]

theorem mapM_some_getElem {α β : Type} (f : α → Option β) :
    ∀ (xs : List α) (ys : List β), xs.mapM f = some ys →
      ∀ (i : Nat) (x : α), xs[i]? = some x → ∃ y, ys[i]? = some y ∧ f x = some y := by
  intro xs
  induction xs with
  | nil => intro ys _ i x hx; simp at hx
  | cons a xs ih =>
    intro zs h i x hx
    obtain ⟨y, ys, hy, hys, rfl⟩ := mapM_some_cons f a xs zs h
    cases i with
    | zero =>
      simp only [List.getElem?_cons_zero, Option.some.injEq] at hx
      subst hx
      exact ⟨y, by simp, hy⟩
    | succ j =>
      simp only [List.getElem?_cons_succ] at hx ⊢
      exact ih ys hys j x hx

theorem maskEmail_total (s : String) : ∃ r, maskEmail s = some r := by
  by_cases h : findAllString emailRegex s.data = []
  · exact ⟨s, by simp [maskEmail, h]⟩
  · exact ⟨_, maskEmail_of_matches s h⟩

theorem maskAddr_total (v : JValue) : ∃ y, maskAddr v = some y := by
  cases v with
  | str e =>
    obtain ⟨r, hr⟩ := maskEmail_total e
    exact ⟨.str r, by simp [maskAddr, hr]⟩
  | null => exact ⟨_, rfl⟩
  | bool b => exact ⟨_, rfl⟩
  | num n => exact ⟨_, rfl⟩
  | arr xs => exact ⟨_, rfl⟩
  | obj kvs => exact ⟨_, rfl⟩

theorem maskAddr_of_not_str (v : JValue) (h : ∀ e, v ≠ .str e) : maskAddr v = some v := by
  cases v with
  | str e => exact absurd rfl (h e)
  | null => rfl
  | bool b => rfl
  | num n => rfl
  | arr xs => rfl
  | obj kvs => rfl

theorem addrsMasked_of_mapM (xs ys : List JValue) (h : xs.mapM maskAddr = some ys) :
    AddrsMasked xs ys := by
  refine ⟨mapM_some_length _ xs ys h, fun i => ⟨?_, ?_⟩⟩
  · intro e he
    obtain ⟨y, hy, hf⟩ := mapM_some_getElem _ xs ys h i _ he
    obtain ⟨r, hr⟩ := maskEmail_total e
    simp only [maskAddr, hr, Option.map_some', Option.some.injEq] at hf
    exact ⟨r, hr, by rw [hy, hf]⟩
  · intro v hv hne
    obtain ⟨y, hy, hf⟩ := mapM_some_getElem _ xs ys h i _ hv
    rw [maskAddr_of_not_str v hne] at hf
    cases hf
    exact hy

theorem mapArrayAt_of_arr (k : String) (f : JValue → Option JValue)
    (hf : ∀ x, ∃ y, f x = some y) (m : JObject) (xs : List JValue)
    (h : getKey k m = some (.arr xs)) :
    ∃ ys, xs.mapM f = some ys ∧ mapArrayAt k f m = some (setKey k (.arr ys) m) := by
  obtain ⟨ys, hys⟩ := mapM_total f hf xs
  refine ⟨ys, hys, ?_⟩
  unfold mapArrayAt
  simp only [h, hys, Option.map_some']

theorem mapArrayAt_of_not_arr (k : String) (f : JValue → Option JValue) (m : JObject)
    (h : ∀ xs, getKey k m ≠ some (.arr xs)) : mapArrayAt k f m = some m := by
  unfold mapArrayAt
  split
  · next xs hx => exact absurd hx (h xs)
  · rfl

theorem mapArrayAt_total (k : String) (f : JValue → Option JValue)
    (hf : ∀ x, ∃ y, f x = some y) (m : JObject) : ∃ m2, mapArrayAt k f m = some m2 := by
  by_cases h : ∃ xs, getKey k m = some (.arr xs)
  · obtain ⟨xs, hx⟩ := h
    obtain ⟨ys, _, hm⟩ := mapArrayAt_of_arr k f hf m xs hx
    exact ⟨_, hm⟩
  · exact ⟨m, mapArrayAt_of_not_arr k f m (fun xs hx => h ⟨xs, hx⟩)⟩

theorem mapArrayAt_frame (k : String) (f : JValue → Option JValue) (m m2 : JObject)
    (h : mapArrayAt k f m = some m2) :
    (∀ k2, k2 ≠ k → getKey k2 m2 = getKey k2 m) ∧ m2.map Prod.fst = m.map Prod.fst := by
  unfold mapArrayAt at h
  split at h
  · next xs hx =>
    cases hys : xs.mapM f with
    | none => rw [hys] at h; cases h
    | some ys =>
      rw [hys] at h
      cases h
      exact ⟨fun k2 hk => getKey_setKey_ne k k2 _ hk m, keys_setKey_of_getKey k _ _ m hx⟩
  · cases h
    exact ⟨fun _ _ => rfl, rfl⟩

theorem processDelivery_eq : processDelivery = mapArrayAt "recipients" maskAddr := rfl

theorem maskDestination_eq : maskDestination = mapArrayAt "destination" maskAddr := rfl

theorem maskHeaders_eq : maskHeaders = mapArrayAt "headers" maskHeader := rfl

theorem processBounce_eq : processBounce = mapArrayAt "bouncedRecipients" maskRecipient := rfl

theorem processComplaint_eq :
    processComplaint = mapArrayAt "complainedRecipients" maskRecipient := rfl

theorem processDeliveryDelay_eq :
    processDeliveryDelay = mapArrayAt "delayedRecipients" maskRecipient := rfl

/-- C7. If the `recipients` field of a delivery mapping is a sequence `r`, `processDelivery`
returns the mapping with `recipients` a sequence of the same length whose element `i` is
`maskEmail(r[i])` when `r[i]` is a string and `r[i]` otherwise; every other key reads as
before and the keys of the mapping are the same. -/
theorem processDelivery_masks_recipients (delivery : JObject) (r : List JValue)
    (h : getKey "recipients" delivery = some (.arr r)) :
    ∃ delivery2 r2, processDelivery delivery = some delivery2 ∧
      getKey "recipients" delivery2 = some (.arr r2) ∧ AddrsMasked r r2 ∧
      (∀ k, k ≠ "recipients" → getKey k delivery2 = getKey k delivery) ∧
      delivery2.map Prod.fst = delivery.map Prod.fst := by
  obtain ⟨ys, hys, hm⟩ := mapArrayAt_of_arr "recipients" maskAddr maskAddr_total delivery r h
  rw [← processDelivery_eq] at hm
  have hfr := mapArrayAt_frame "recipients" maskAddr delivery _ (processDelivery_eq ▸ hm)
  exact ⟨_, ys, hm, getKey_setKey_same _ _ _, addrsMasked_of_mapM r ys hys, hfr.1, hfr.2⟩

/-- Witness for C7: a delivery with one address, one null element and an unrelated key. -/
theorem processDelivery_masks_recipients_witness :
    getKey "recipients"
        [("recipients", .arr [.str "user1@example.com", .null]), ("smtpResponse", .str "250 ok")] =
        some (.arr [.str "user1@example.com", .null]) ∧
      ∃ delivery2 r2,
        processDelivery
          [("recipients", .arr [.str "user1@example.com", .null]),
            ("smtpResponse", .str "250 ok")] = some delivery2 ∧
        getKey "recipients" delivery2 = some (.arr r2) ∧
        AddrsMasked [.str "user1@example.com", .null] r2 ∧
        (∀ k, k ≠ "recipients" → getKey k delivery2 =
          getKey k [("recipients", .arr [.str "user1@example.com", .null]),
            ("smtpResponse", .str "250 ok")]) ∧
        delivery2.map Prod.fst =
          [("recipients", JValue.arr [.str "user1@example.com", .null]),
            ("smtpResponse", .str "250 ok")].map Prod.fst :=
  ⟨rfl, processDelivery_masks_recipients _ _ rfl⟩

/-! ## Recipient objects: bounce, complaint, delivery delay -/

theorem maskRecipient_of_email (r : JObject) (e e2 : String)
    (h : getKey "emailAddress" r = some (.str e)) (he : maskEmail e = some e2) :
    maskRecipient (.obj r) = some (.obj (setKey "emailAddress" (.str e2) r)) := by
  simp only [maskRecipient, h, he, Option.map_some']

theorem maskRecipient_of_no_email (r : JObject)
    (h : ∀ e, getKey "emailAddress" r ≠ some (.str e)) :
    maskRecipient (.obj r) = some (.obj r) := by
  simp only [maskRecipient]

theorem maskRecipient_of_not_obj (v : JValue) (h : ∀ r, v ≠ .obj r) :
    maskRecipient v = some v := by
  cases v with
  | obj r => exact absurd rfl (h r)
  | null => rfl
  | bool b => rfl
  | num n => rfl
  | str s => rfl
  | arr xs => rfl

theorem maskRecipient_total (v : JValue) : ∃ y, maskRecipient v = some y := by
  by_cases hobj : ∃ r, v = .obj r
  · obtain ⟨r, rfl⟩ := hobj
    by_cases he : ∃ e, getKey "emailAddress" r = some (.str e)
    · obtain ⟨e, he⟩ := he
      obtain ⟨e2, he2⟩ := maskEmail_total e
      exact ⟨_, maskRecipient_of_email r e e2 he he2⟩
    · exact ⟨_, maskRecipient_of_no_email r (fun e h => he ⟨e, h⟩)⟩
  · exact ⟨v, maskRecipient_of_not_obj v (fun r h => hobj ⟨r, h⟩)⟩

theorem recipientsMasked_of_mapM (xs ys : List JValue) (h : xs.mapM maskRecipient = some ys) :
    RecipientsMasked xs ys := by
  refine ⟨mapM_some_length _ xs ys h, fun i => ⟨?_, ?_, ?_⟩⟩
  · intro r e hr he
    obtain ⟨y, hy, hf⟩ := mapM_some_getElem _ xs ys h i _ hr
    obtain ⟨e2, he2⟩ := maskEmail_total e
    rw [maskRecipient_of_email r e e2 he he2] at hf
    cases hf
    exact ⟨e2, _, he2, hy, getKey_setKey_same _ _ _,
      fun k hk => getKey_setKey_ne _ k _ hk r, keys_setKey_of_getKey _ _ _ r he⟩
  · intro v hv hne
    obtain ⟨y, hy, hf⟩ := mapM_some_getElem _ xs ys h i _ hv
    rw [maskRecipient_of_not_obj v hne] at hf
    cases hf
    exact hy
  · intro r hr hne
    obtain ⟨y, hy, hf⟩ := mapM_some_getElem _ xs ys h i _ hr
    rw [maskRecipient_of_no_email r hne] at hf
    cases hf
    exact hy

/-- C8. If the `bouncedRecipients` field of a bounce mapping is a sequence, `processBounce`
returns the mapping with that sequence of the same length in which every element that is
a mapping with a string `emailAddress` `e` has `emailAddress = maskEmail(e)` and its
other fields unchanged, while elements that are not mappings or have no string
`emailAddress` are unchanged; every other key of the bounce mapping reads as before.
For `bouncedRecipients = [{emailAddress: "bob12@example.com"}]` the masked address is
`"b****@e*********m"`. -/
theorem processBounce_masks_recipients :
    (∀ (bounce : JObject) (xs : List JValue),
      getKey "bouncedRecipients" bounce = some (.arr xs) →
        ∃ bounce2 ys, processBounce bounce = some bounce2 ∧
          getKey "bouncedRecipients" bounce2 = some (.arr ys) ∧ RecipientsMasked xs ys ∧
          (∀ k, k ≠ "bouncedRecipients" → getKey k bounce2 = getKey k bounce) ∧
          bounce2.map Prod.fst = bounce.map Prod.fst) ∧
    processBounce
        [("bouncedRecipients", .arr [.obj [("emailAddress", .str "bob12@example.com")]])] =
      some [("bouncedRecipients", .arr [.obj [("emailAddress", .str "b****@e*********m")]])] := by
  refine ⟨?_, rfl⟩
  intro bounce xs h
  obtain ⟨ys, hys, hm⟩ :=
    mapArrayAt_of_arr "bouncedRecipients" maskRecipient maskRecipient_total bounce xs h
  have hfr := mapArrayAt_frame "bouncedRecipients" maskRecipient bounce _ hm
  rw [← processBounce_eq] at hm
  exact ⟨_, ys, hm, getKey_setKey_same _ _ _, recipientsMasked_of_mapM xs ys hys,
    hfr.1, hfr.2⟩

/-- Witness for C8: a bounce with one recipient object, one string element and another
key. -/
theorem processBounce_masks_recipients_witness :
    getKey "bouncedRecipients"
        [("bounceType", .str "Permanent"),
          ("bouncedRecipients",
            .arr [.obj [("emailAddress", .str "bob12@example.com"), ("status", .str "5.1.1")],
              .str "x"])] =
        some (.arr [.obj [("emailAddress", .str "bob12@example.com"), ("status", .str "5.1.1")],
          .str "x"]) ∧
      ∃ bounce2 ys,
        processBounce
          [("bounceType", .str "Permanent"),
            ("bouncedRecipients",
              .arr [.obj [("emailAddress", .str "bob12@example.com"),
                ("status", .str "5.1.1")], .str "x"])] = some bounce2 ∧
        getKey "bouncedRecipients" bounce2 = some (.arr ys) ∧
        RecipientsMasked
          [.obj [("emailAddress", .str "bob12@example.com"), ("status", .str "5.1.1")],
            .str "x"] ys ∧
        (∀ k, k ≠ "bouncedRecipients" → getKey k bounce2 =
          getKey k [("bounceType", .str "Permanent"),
            ("bouncedRecipients",
              .arr [.obj [("emailAddress", .str "bob12@example.com"),
                ("status", .str "5.1.1")], .str "x"])]) ∧
        bounce2.map Prod.fst = ["bounceType", "bouncedRecipients"] :=
  ⟨rfl, processBounce_masks_recipients.1 _ _ rfl⟩

/-! ## The mail redactor -/

theorem maskHeader_of_subject (h : JObject)
    (hn : getKey "name" h = some (.str "Subject")) :
    maskHeader (.obj h) = some (.obj (setKey "value" (.str omittedSubject) h)) := by
  have h1 : ("Subject" : String) ≠ "To" := by decide
  simp [maskHeader, hn, h1]

theorem maskHeader_of_to (h : JObject) (v v2 : String)
    (hn : getKey "name" h = some (.str "To")) (hv : getKey "value" h = some (.str v))
    (hm : maskEmail v = some v2) :
    maskHeader (.obj h) = some (.obj (setKey "value" (.str v2) h)) := by
  simp [maskHeader, hn, hv, hm]

theorem maskHeader_of_not_obj (x : JValue) (h : ∀ o, x ≠ .obj o) : maskHeader x = some x := by
  cases x with
  | obj o => exact absurd rfl (h o)
  | null => rfl
  | bool b => rfl
  | num n => rfl
  | str s => rfl
  | arr xs => rfl

theorem maskHeader_total (x : JValue) : ∃ y, maskHeader x = some y := by
  by_cases hobj : ∃ o, x = .obj o
  · obtain ⟨h, rfl⟩ := hobj
    simp only [maskHeader]
    split
    · next name hn =>
      split
      · split
        · next value hv =>
          obtain ⟨v2, hv2⟩ := maskEmail_total value
          exact ⟨_, by rw [hv2]; rfl⟩
        · exact ⟨_, rfl⟩
      · split
        · exact ⟨_, rfl⟩
        · exact ⟨_, rfl⟩
    · exact ⟨_, rfl⟩
  · exact ⟨x, maskHeader_of_not_obj x (fun o h => hobj ⟨o, h⟩)⟩

theorem maskCommonHeaders_eq (mail : JObject) :
    maskCommonHeaders mail =
      match getKey "commonHeaders" mail with
      | some (.obj ch) =>
        (mapArrayAt "to" maskAddr ch).bind (fun ch1 =>
          some (setKey "commonHeaders" (.obj (setKey "subject" (.str omittedSubject) ch1)) mail))
      | _ => some mail := by
  unfold maskCommonHeaders mapArrayAt
  split
  · split <;> rfl
  · rfl

theorem maskCommonHeaders_of_obj (mail ch : JObject)
    (h : getKey "commonHeaders" mail = some (.obj ch)) :
    ∃ ch1, mapArrayAt "to" maskAddr ch = some ch1 ∧
      maskCommonHeaders mail = some (setKey "commonHeaders"
        (.obj (setKey "subject" (.str omittedSubject) ch1)) mail) := by
  obtain ⟨ch1, h1⟩ := mapArrayAt_total "to" maskAddr maskAddr_total ch
  refine ⟨ch1, h1, ?_⟩
  rw [maskCommonHeaders_eq]
  simp only [h, h1, Option.some_bind]

theorem maskCommonHeaders_of_not_obj (mail : JObject)
    (h : ∀ ch, getKey "commonHeaders" mail ≠ some (.obj ch)) :
    maskCommonHeaders mail = some mail := by
  rw [maskCommonHeaders_eq]
  split
  · next ch hc => exact absurd hc (h ch)
  · rfl

theorem maskCommonHeaders_total (mail : JObject) : ∃ m2, maskCommonHeaders mail = some m2 := by
  by_cases h : ∃ ch, getKey "commonHeaders" mail = some (.obj ch)
  · obtain ⟨ch, hc⟩ := h
    obtain ⟨ch1, _, hm⟩ := maskCommonHeaders_of_obj mail ch hc
    exact ⟨_, hm⟩
  · exact ⟨mail, maskCommonHeaders_of_not_obj mail (fun ch hc => h ⟨ch, hc⟩)⟩

theorem maskCommonHeaders_frame (mail m2 : JObject) (h : maskCommonHeaders mail = some m2) :
    (∀ k, k ≠ "commonHeaders" → getKey k m2 = getKey k mail) ∧
      m2.map Prod.fst = mail.map Prod.fst := by
  by_cases hc : ∃ ch, getKey "commonHeaders" mail = some (.obj ch)
  · obtain ⟨ch, hc⟩ := hc
    obtain ⟨ch1, _, hm⟩ := maskCommonHeaders_of_obj mail ch hc
    rw [hm] at h
    cases h
    exact ⟨fun k hk => getKey_setKey_ne _ k _ hk mail, keys_setKey_of_getKey _ _ _ mail hc⟩
  · rw [maskCommonHeaders_of_not_obj mail (fun ch h2 => hc ⟨ch, h2⟩)] at h
    cases h
    exact ⟨fun _ _ => rfl, rfl⟩

/-- The three blocks of `processMail` all return, and `processMail` returns the result of
the last. -/
theorem processMail_steps (mail : JObject) :
    ∃ m1 m2 m3, maskDestination mail = some m1 ∧ maskCommonHeaders m1 = some m2 ∧
      maskHeaders m2 = some m3 ∧ processMail mail = some m3 := by
  obtain ⟨m1, h1⟩ := mapArrayAt_total "destination" maskAddr maskAddr_total mail
  obtain ⟨m2, h2⟩ := maskCommonHeaders_total m1
  obtain ⟨m3, h3⟩ := mapArrayAt_total "headers" maskHeader maskHeader_total m2
  rw [← maskDestination_eq] at h1
  rw [← maskHeaders_eq] at h3
  refine ⟨m1, m2, m3, h1, h2, h3, ?_⟩
  unfold processMail
  simp only [h1, h2, h3, Option.bind_eq_bind, Option.some_bind]

/-- What `processMail` returns, block by block. -/
theorem processMail_result (mail : JObject) :
    ∃ mail2, processMail mail = some mail2 ∧
      (∀ ds, getKey "destination" mail = some (.arr ds) →
        ∃ ds2, getKey "destination" mail2 = some (.arr ds2) ∧ ds.mapM maskAddr = some ds2) ∧
      (∀ ch, getKey "commonHeaders" mail = some (.obj ch) →
        ∃ ch1, mapArrayAt "to" maskAddr ch = some ch1 ∧
          getKey "commonHeaders" mail2 =
            some (.obj (setKey "subject" (.str omittedSubject) ch1))) ∧
      (∀ hs, getKey "headers" mail = some (.arr hs) →
        ∃ hs2, getKey "headers" mail2 = some (.arr hs2) ∧ hs.mapM maskHeader = some hs2) ∧
      (∀ k, k ≠ "destination" → k ≠ "commonHeaders" → k ≠ "headers" →
        getKey k mail2 = getKey k mail) ∧
      mail2.map Prod.fst = mail.map Prod.fst ∧
      ((∀ xs, getKey "destination" mail ≠ some (.arr xs)) →
        (∀ ch, getKey "commonHeaders" mail ≠ some (.obj ch)) →
        (∀ xs, getKey "headers" mail ≠ some (.arr xs)) → mail2 = mail) := by
  obtain ⟨m1, m2, m3, h1, h2, h3, hp⟩ := processMail_steps mail
  have f1 := mapArrayAt_frame "destination" maskAddr mail m1 (maskDestination_eq ▸ h1)
  have f2 := maskCommonHeaders_frame m1 m2 h2
  have f3 := mapArrayAt_frame "headers" maskHeader m2 m3 (maskHeaders_eq ▸ h3)
  have e12 : ("commonHeaders" : String) ≠ "destination" := by decide
  have e13 : ("headers" : String) ≠ "destination" := by decide
  have e21 : ("destination" : String) ≠ "commonHeaders" := by decide
  have e23 : ("headers" : String) ≠ "commonHeaders" := by decide
  have e31 : ("destination" : String) ≠ "headers" := by decide
  have e32 : ("commonHeaders" : String) ≠ "headers" := by decide
  refine ⟨m3, hp, ?_, ?_, ?_, ?_, ?_, ?_⟩
  · intro ds hd
    obtain ⟨ds2, hds, hm⟩ := mapArrayAt_of_arr "destination" maskAddr maskAddr_total mail ds hd
    rw [← maskDestination_eq, h1] at hm
    cases hm
    refine ⟨ds2, ?_, hds⟩
    rw [f3.1 _ e31, f2.1 _ e21]
    exact getKey_setKey_same _ _ _
  · intro ch hc
    have hc1 : getKey "commonHeaders" m1 = some (.obj ch) := by rw [f1.1 _ e12]; exact hc
    obtain ⟨ch1, hch, hm⟩ := maskCommonHeaders_of_obj m1 ch hc1
    rw [h2] at hm
    cases hm
    refine ⟨ch1, hch, ?_⟩
    rw [f3.1 _ e32]
    exact getKey_setKey_same _ _ _
  · intro hs hh
    have hh2 : getKey "headers" m2 = some (.arr hs) := by
      rw [f2.1 _ e23, f1.1 _ e13]; exact hh
    obtain ⟨hs2, hhs, hm⟩ := mapArrayAt_of_arr "headers" maskHeader maskHeader_total m2 hs hh2
    rw [← maskHeaders_eq, h3] at hm
    cases hm
    exact ⟨hs2, getKey_setKey_same _ _ _, hhs⟩
  · intro k k1 k2 k3
    rw [f3.1 k k3, f2.1 k k2, f1.1 k k1]
  · rw [f3.2, f2.2, f1.2]
  · intro n1 n2 n3
    have a1 : m1 = mail := by
      have := mapArrayAt_of_not_arr "destination" maskAddr mail n1
      rw [← maskDestination_eq, h1] at this
      exact (Option.some.inj this)
    subst a1
    have a2 : m2 = m1 := by
      have := maskCommonHeaders_of_not_obj m1 n2
      rw [h2] at this
      exact (Option.some.inj this)
    subst a2
    have := mapArrayAt_of_not_arr "headers" maskHeader m2 n3
    rw [← maskHeaders_eq, h3] at this
    exact (Option.some.inj this)

/-- C5. After `processMail`: (a) if `commonHeaders` is a mapping, its `subject` is exactly
`"**Omitted**"`, whatever was there before and also when there was no subject; (b) if
`headers` is a sequence, every element that is a mapping whose `name` is the string
`"Subject"` has `value` exactly `"**Omitted**"` (and still has that name). -/
theorem processMail_omits_subjects :
    (∀ (mail ch : JObject), getKey "commonHeaders" mail = some (.obj ch) →
      ∃ mail2 ch2, processMail mail = some mail2 ∧
        getKey "commonHeaders" mail2 = some (.obj ch2) ∧
        getKey "subject" ch2 = some (.str "**Omitted**")) ∧
    (∀ (mail : JObject) (hs : List JValue), getKey "headers" mail = some (.arr hs) →
      ∃ mail2 hs2, processMail mail = some mail2 ∧
        getKey "headers" mail2 = some (.arr hs2) ∧ hs2.length = hs.length ∧
        ∀ (j : Nat) (h : JObject), hs[j]? = some (.obj h) →
          getKey "name" h = some (.str "Subject") →
          ∃ h2, hs2[j]? = some (.obj h2) ∧ getKey "name" h2 = some (.str "Subject") ∧
            getKey "value" h2 = some (.str "**Omitted**")) := by
  constructor
  · intro mail ch hc
    obtain ⟨mail2, hp, _, hch, _⟩ := processMail_result mail
    obtain ⟨ch1, _, hg⟩ := hch ch hc
    exact ⟨mail2, _, hp, hg, getKey_setKey_same _ _ _⟩
  · intro mail hs hh
    obtain ⟨mail2, hp, _, _, hhs, _⟩ := processMail_result mail
    obtain ⟨hs2, hg, hm⟩ := hhs hs hh
    refine ⟨mail2, hs2, hp, hg, mapM_some_length _ hs hs2 hm, ?_⟩
    intro j h hj hn
    obtain ⟨y, hy, hf⟩ := mapM_some_getElem _ hs hs2 hm j _ hj
    rw [maskHeader_of_subject h hn] at hf
    cases hf
    refine ⟨_, hy, ?_, getKey_setKey_same _ _ _⟩
    rw [getKey_setKey_ne _ _ _ (by decide)]
    exact hn

/-- Witness for C5 on the sample mail. -/
theorem processMail_omits_subjects_witness :
    (∃ mail2 ch2, processMail sampleMail = some mail2 ∧
        getKey "commonHeaders" mail2 = some (.obj ch2) ∧
        getKey "subject" ch2 = some (.str "**Omitted**")) ∧
    (∃ mail2 hs2, processMail sampleMail = some mail2 ∧
        getKey "headers" mail2 = some (.arr hs2) ∧ hs2.length = 3 ∧
        ∀ (j : Nat) (h : JObject),
          [JValue.obj [("name", .str "To"), ("value", .str "user1@example.com")],
            .obj [("name", .str "Subject"), ("value", .str "Hello")], .str "x"][j]? =
              some (.obj h) →
          getKey "name" h = some (.str "Subject") →
          ∃ h2, hs2[j]? = some (.obj h2) ∧ getKey "name" h2 = some (.str "Subject") ∧
            getKey "value" h2 = some (.str "**Omitted**")) :=
  ⟨processMail_omits_subjects.1 sampleMail _ rfl, processMail_omits_subjects.2 sampleMail _ rfl⟩

/-- C6. After `processMail` every address-bearing field holds the masked form of its
original value: the strings of `destination`, the strings of `commonHeaders.to`, and the
string `value` of every header mapping named `"To"`; the three sequences keep their
lengths, and their non-string (for `headers`: non-mapping) elements are unchanged. -/
theorem processMail_masks_addresses :
    (∀ (mail : JObject) (ds : List JValue), getKey "destination" mail = some (.arr ds) →
      ∃ mail2 ds2, processMail mail = some mail2 ∧
        getKey "destination" mail2 = some (.arr ds2) ∧ AddrsMasked ds ds2) ∧
    (∀ (mail ch : JObject) (ts : List JValue),
      getKey "commonHeaders" mail = some (.obj ch) → getKey "to" ch = some (.arr ts) →
      ∃ mail2 ch2 ts2, processMail mail = some mail2 ∧
        getKey "commonHeaders" mail2 = some (.obj ch2) ∧
        getKey "to" ch2 = some (.arr ts2) ∧ AddrsMasked ts ts2) ∧
    (∀ (mail : JObject) (hs : List JValue), getKey "headers" mail = some (.arr hs) →
      ∃ mail2 hs2, processMail mail = some mail2 ∧
        getKey "headers" mail2 = some (.arr hs2) ∧ hs2.length = hs.length ∧
        ∀ j : Nat,
          (∀ h v, hs[j]? = some (.obj h) → getKey "name" h = some (.str "To") →
            getKey "value" h = some (.str v) →
            ∃ v2 h2, maskEmail v = some v2 ∧ hs2[j]? = some (.obj h2) ∧
              getKey "value" h2 = some (.str v2) ∧
              ∀ k, k ≠ "value" → getKey k h2 = getKey k h) ∧
          (∀ x, hs[j]? = some x → (∀ h, x ≠ .obj h) → hs2[j]? = some x)) := by
  refine ⟨?_, ?_, ?_⟩
  · intro mail ds hd
    obtain ⟨mail2, hp, hds, _⟩ := processMail_result mail
    obtain ⟨ds2, hg, hm⟩ := hds ds hd
    exact ⟨mail2, ds2, hp, hg, addrsMasked_of_mapM ds ds2 hm⟩
  · intro mail ch ts hc ht
    obtain ⟨mail2, hp, _, hch, _⟩ := processMail_result mail
    obtain ⟨ch1, hch1, hg⟩ := hch ch hc
    obtain ⟨ts2, hts, hm⟩ := mapArrayAt_of_arr "to" maskAddr maskAddr_total ch ts ht
    rw [hch1] at hm
    cases hm
    refine ⟨mail2, _, ts2, hp, hg, ?_, addrsMasked_of_mapM ts ts2 hts⟩
    rw [getKey_setKey_ne _ _ _ (by decide)]
    exact getKey_setKey_same _ _ _
  · intro mail hs hh
    obtain ⟨mail2, hp, _, _, hhs, _⟩ := processMail_result mail
    obtain ⟨hs2, hg, hm⟩ := hhs hs hh
    refine ⟨mail2, hs2, hp, hg, mapM_some_length _ hs hs2 hm, fun j => ⟨?_, ?_⟩⟩
    · intro h v hj hn hv
      obtain ⟨y, hy, hf⟩ := mapM_some_getElem _ hs hs2 hm j _ hj
      obtain ⟨v2, hv2⟩ := maskEmail_total v
      rw [maskHeader_of_to h v v2 hn hv hv2] at hf
      cases hf
      exact ⟨v2, _, hv2, hy, getKey_setKey_same _ _ _,
        fun k hk => getKey_setKey_ne _ k _ hk h⟩
    · intro x hj hne
      obtain ⟨y, hy, hf⟩ := mapM_some_getElem _ hs hs2 hm j _ hj
      rw [maskHeader_of_not_obj x hne] at hf
      cases hf
      exact hy

/-- Witness for C6 on the sample mail. -/
theorem processMail_masks_addresses_witness :
    (∃ mail2 ds2, processMail sampleMail = some mail2 ∧
        getKey "destination" mail2 = some (.arr ds2) ∧
        AddrsMasked [.str "user1@example.com", .null] ds2) ∧
    (∃ mail2 ch2 ts2, processMail sampleMail = some mail2 ∧
        getKey "commonHeaders" mail2 = some (.obj ch2) ∧
        getKey "to" ch2 = some (.arr ts2) ∧
        AddrsMasked [.str "User One <user1@example.com>"] ts2) ∧
    (∃ mail2 hs2, processMail sampleMail = some mail2 ∧
        getKey "headers" mail2 = some (.arr hs2) ∧ hs2.length = 3) :=
  ⟨processMail_masks_addresses.1 sampleMail _ rfl,
    processMail_masks_addresses.2.1 sampleMail _ _ rfl rfl,
    (processMail_masks_addresses.2.2 sampleMail _ rfl).imp fun _ h =>
      h.imp fun _ h2 => ⟨h2.1, h2.2.1, h2.2.2.1⟩⟩

/-! ## Absent and ill-typed fields -/

/-- C9. Each shape redactor returns on every mapping (it never fails or raises), and it
leaves the mapping unchanged when its expected fields are absent or hold a value of the
wrong type: `recipients` not a sequence for `processDelivery`; `bouncedRecipients`,
`complainedRecipients`, `delayedRecipients` not a sequence for `processBounce`,
`processComplaint`, `processDeliveryDelay`; `destination` and `headers` not sequences and
`commonHeaders` not a mapping for `processMail`. -/
theorem redactors_total_and_skip_ill_typed :
    (∀ d : JObject, (∀ xs, getKey "recipients" d ≠ some (.arr xs)) →
      processDelivery d = some d) ∧
    (∀ d : JObject, (∀ xs, getKey "bouncedRecipients" d ≠ some (.arr xs)) →
      processBounce d = some d) ∧
    (∀ d : JObject, (∀ xs, getKey "complainedRecipients" d ≠ some (.arr xs)) →
      processComplaint d = some d) ∧
    (∀ d : JObject, (∀ xs, getKey "delayedRecipients" d ≠ some (.arr xs)) →
      processDeliveryDelay d = some d) ∧
    (∀ d : JObject, (∀ xs, getKey "destination" d ≠ some (.arr xs)) →
      (∀ xs, getKey "headers" d ≠ some (.arr xs)) →
      (∀ ch, getKey "commonHeaders" d ≠ some (.obj ch)) → processMail d = some d) ∧
    (∀ d : JObject, (∃ r, processDelivery d = some r) ∧ (∃ r, processMail d = some r) ∧
      (∃ r, processBounce d = some r) ∧ (∃ r, processComplaint d = some r) ∧
      (∃ r, processDeliveryDelay d = some r)) := by
  refine ⟨?_, ?_, ?_, ?_, ?_, ?_⟩
  · intro d h
    rw [processDelivery_eq]; exact mapArrayAt_of_not_arr _ _ d h
  · intro d h
    rw [processBounce_eq]; exact mapArrayAt_of_not_arr _ _ d h
  · intro d h
    rw [processComplaint_eq]; exact mapArrayAt_of_not_arr _ _ d h
  · intro d h
    rw [processDeliveryDelay_eq]; exact mapArrayAt_of_not_arr _ _ d h
  · intro d h1 h3 h2
    obtain ⟨mail2, hp, _, _, _, _, _, hno⟩ := processMail_result d
    rw [hp, hno h1 h2 h3]
  · intro d
    refine ⟨?_, ?_, ?_, ?_, ?_⟩
    · rw [processDelivery_eq]; exact mapArrayAt_total _ _ maskAddr_total d
    · obtain ⟨mail2, hp, _⟩ := processMail_result d
      exact ⟨mail2, hp⟩
    · rw [processBounce_eq]; exact mapArrayAt_total _ _ maskRecipient_total d
    · rw [processComplaint_eq]; exact mapArrayAt_total _ _ maskRecipient_total d
    · rw [processDeliveryDelay_eq]; exact mapArrayAt_total _ _ maskRecipient_total d

/-- Witness for C9: a delivery whose `recipients` is a string, a bounce without
`bouncedRecipients`, and a mail whose three fields are all of the wrong type. -/
theorem redactors_total_and_skip_ill_typed_witness :
    processDelivery [("recipients", .str "user1@example.com")] =
        some [("recipients", .str "user1@example.com")] ∧
      processBounce [("bounceType", .str "Permanent")] =
        some [("bounceType", .str "Permanent")] ∧
      processMail [("destination", .str "user1@example.com"), ("commonHeaders", .arr []),
          ("headers", .null)] =
        some [("destination", .str "user1@example.com"), ("commonHeaders", .arr []),
          ("headers", .null)] :=
  ⟨redactors_total_and_skip_ill_typed.1 _ (fun xs h => by simp [getKey] at h),
    redactors_total_and_skip_ill_typed.2.1 _ (fun xs h => by simp [getKey] at h),
    redactors_total_and_skip_ill_typed.2.2.2.2.1 _ (fun xs h => by simp [getKey] at h)
      (fun xs h => by simp [getKey] at h) (fun ch h => by simp [getKey] at h)⟩

/-! ## The record transformer -/

/-- C10. When the payload of a record fails to decode, `processRecord` returns the
response with the record's own `RecordID`, `Result = ProcessingFailed` and no `Data`,
together with the decode error. -/
theorem processRecord_decode_failure {ε : Type} (unmarshal : List UInt8 → Except ε JObject)
    (marshal : JObject → Except ε (List UInt8)) (record : KinesisFirehoseEventRecord)
    (err : ε) (h : unmarshal record.Data = .error err) :
    processRecord unmarshal marshal record =
      some ({ RecordID := record.RecordID, Result := .ProcessingFailed, Data := none },
        some err) := by
  simp only [processRecord, h]

/-- Witness for C10: a decoder that rejects the empty payload. -/
theorem processRecord_decode_failure_witness :
    processRecord (fun _ => Except.error "unexpected end of JSON input")
        (fun _ => Except.ok []) { RecordID := "record-1", Data := [] } =
      some ({ RecordID := "record-1", Result := .ProcessingFailed, Data := none },
        some "unexpected end of JSON input") :=
  processRecord_decode_failure (fun _ => Except.error "unexpected end of JSON input")
    (fun _ => Except.ok []) { RecordID := "record-1", Data := [] }
    "unexpected end of JSON input" rfl

/-! ## The redaction step of the record transformer -/

theorem redactKey_spec (k : String) (f : JObject → Option JObject)
    (hf : ∀ x, ∃ y, f x = some y) (D : JObject) :
    ∃ D1, redactKey k f D = some D1 ∧ (∀ k2, k2 ≠ k → getKey k2 D1 = getKey k2 D) ∧
      D1.map Prod.fst = D.map Prod.fst ∧ KeyRedacted k f D D1 := by
  by_cases h : ∃ sub, getKey k D = some (.obj sub)
  · obtain ⟨sub, hs⟩ := h
    obtain ⟨sub2, h2⟩ := hf sub
    refine ⟨setKey k (.obj sub2) D, ?_, fun k2 hk => getKey_setKey_ne k k2 _ hk D,
      keys_setKey_of_getKey k _ _ D hs, ?_, ?_⟩
    · unfold redactKey
      simp only [hs, h2, Option.map_some']
    · intro sub3 h3
      rw [hs] at h3
      cases h3
      exact ⟨sub2, h2, getKey_setKey_same _ _ _⟩
    · intro hno
      exact absurd hs (hno sub)
  · refine ⟨D, ?_, fun _ _ => rfl, rfl, ?_, fun _ => rfl⟩
    · unfold redactKey
      split
      · next sub hs => exact absurd ⟨sub, hs⟩ h
      · rfl
    · intro sub hs
      exact absurd ⟨sub, hs⟩ h

theorem keyRedacted_congr (k : String) (f : JObject → Option JObject) (D D1 D2 D3 : JObject)
    (h : KeyRedacted k f D1 D2) (h1 : getKey k D1 = getKey k D)
    (h2 : getKey k D3 = getKey k D2) : KeyRedacted k f D D3 := by
  constructor
  · intro sub hs
    obtain ⟨sub2, hf, hg⟩ := h.1 sub (by rw [h1]; exact hs)
    exact ⟨sub2, hf, by rw [h2]; exact hg⟩
  · intro hno
    rw [h2, h.2 (by rw [h1]; exact hno), h1]

theorem redactAll_spec :
    ∀ (ps : List (String × (JObject → Option JObject))),
      (∀ p ∈ ps, ∀ x, ∃ y, p.2 x = some y) → (ps.map Prod.fst).Nodup →
      ∀ D : JObject, ∃ D2, redactAll ps D = some D2 ∧
        (∀ k, k ∉ ps.map Prod.fst → getKey k D2 = getKey k D) ∧
        D2.map Prod.fst = D.map Prod.fst ∧
        ∀ p ∈ ps, KeyRedacted p.1 p.2 D D2 := by
  intro ps
  induction ps with
  | nil =>
    intro _ _ D
    exact ⟨D, rfl, fun _ _ => rfl, rfl, fun p hp => by simp at hp⟩
  | cons q rest ih =>
    intro htot hnd D
    obtain ⟨k, f⟩ := q
    simp only [List.map_cons, List.nodup_cons] at hnd
    obtain ⟨D1, h1, fr1, keys1, kr1⟩ := redactKey_spec k f (htot (k, f) (List.mem_cons_self _ _)) D
    obtain ⟨D2, h2, fr2, keys2, kr2⟩ :=
      ih (fun p hp => htot p (List.mem_cons_of_mem _ hp)) hnd.2 D1
    refine ⟨D2, ?_, ?_, ?_, ?_⟩
    · simp only [redactAll, h1, Option.some_bind, h2]
    · intro k2 hk2
      simp only [List.map_cons, List.mem_cons, not_or] at hk2
      rw [fr2 k2 hk2.2, fr1 k2 hk2.1]
    · rw [keys2, keys1]
    · intro p hp
      rcases List.mem_cons.1 hp with rfl | hp
      · exact keyRedacted_congr _ _ D D D1 D2 kr1 rfl (fr2 _ hnd.1)
      · have hne : p.1 ≠ k := by
          intro e
          exact hnd.1 (e ▸ List.mem_map_of_mem Prod.fst hp)
        exact keyRedacted_congr _ _ D D1 D2 D2 (kr2 p hp) (fr1 _ hne) rfl

theorem redactEvent_eq (D : JObject) : redactEvent D = redactAll redactors D := by
  unfold redactEvent redactors
  simp only [redactAll, Option.bind_eq_bind]
  congr 1; funext D1
  congr 1; funext D2
  congr 1; funext D3
  congr 1; funext D4
  simp

theorem processMail_total (mail : JObject) : ∃ r, processMail mail = some r := by
  obtain ⟨mail2, hp, _⟩ := processMail_result mail
  exact ⟨mail2, hp⟩

theorem redactors_total : ∀ p ∈ redactors, ∀ x, ∃ y, p.2 x = some y := by
  intro p hp x
  simp only [redactors, List.mem_cons, List.mem_singleton, List.not_mem_nil, or_false] at hp
  rcases hp with rfl | rfl | rfl | rfl | rfl
  · exact processDelivery_eq ▸ mapArrayAt_total _ _ maskAddr_total x
  · exact processMail_total x
  · exact processBounce_eq ▸ mapArrayAt_total _ _ maskRecipient_total x
  · exact processComplaint_eq ▸ mapArrayAt_total _ _ maskRecipient_total x
  · exact processDeliveryDelay_eq ▸ mapArrayAt_total _ _ maskRecipient_total x

/-- The redaction step always returns, and its result is the redacted document. -/
theorem redactEvent_redacted (D : JObject) : ∃ D2, redactEvent D = some D2 ∧ Redacted D D2 := by
  obtain ⟨D2, h, fr, keys, kr⟩ := redactAll_spec redactors redactors_total (by decide) D
  rw [← redactEvent_eq] at h
  refine ⟨D2, h, kr ("delivery", processDelivery) (by simp [redactors]),
    kr ("mail", processMail) (by simp [redactors]),
    kr ("bounce", processBounce) (by simp [redactors]),
    kr ("complaint", processComplaint) (by simp [redactors]),
    kr ("deliveryDelay", processDeliveryDelay) (by simp [redactors]), ?_, keys⟩
  intro k h1 h2 h3 h4 h5
  apply fr
  simp [redactors, h1, h2, h3, h4, h5]

theorem processRecord_of_decoded {ε : Type} (unmarshal : List UInt8 → Except ε JObject)
    (marshal : JObject → Except ε (List UInt8)) (record : KinesisFirehoseEventRecord)
    (D D2 : JObject) (hd : unmarshal record.Data = .ok D) (hr : redactEvent D = some D2) :
    processRecord unmarshal marshal record =
      match marshal D2 with
      | .error err => some (failedRecord record, some err)
      | .ok modifiedData =>
        some ({ RecordID := record.RecordID, Result := .Ok, Data := some modifiedData }, none) := by
  simp only [processRecord, hd, hr, Option.bind_eq_bind, Option.some_bind]
  cases marshal D2 <;> rfl

/-- C11. When the payload of a record decodes to a document `D`, the redaction step returns
the document `D2` obtained from `D` by applying `processDelivery`, `processMail`,
`processBounce`, `processComplaint` and `processDeliveryDelay` to the values of their
top-level keys, for exactly the keys that hold a mapping (an absent key or a non-mapping
value is left as it is and raises nothing); and with `data` the encoding of `D2`,
`processRecord` returns no error and the response with the record's own `RecordID`,
`Result = Ok` and `Data = data`. -/
theorem processRecord_decoded {ε : Type} (unmarshal : List UInt8 → Except ε JObject)
    (marshal : JObject → Except ε (List UInt8)) (record : KinesisFirehoseEventRecord)
    (D : JObject) (hd : unmarshal record.Data = .ok D) :
    ∃ D2, redactEvent D = some D2 ∧ Redacted D D2 ∧
      ∀ data, marshal D2 = .ok data →
        processRecord unmarshal marshal record =
          some ({ RecordID := record.RecordID, Result := .Ok, Data := some data }, none) := by
  obtain ⟨D2, hr, hred⟩ := redactEvent_redacted D
  refine ⟨D2, hr, hred, fun data hm => ?_⟩
  rw [processRecord_of_decoded unmarshal marshal record D D2 hd hr, hm]

/-- Witness for C11: a record that decodes to the sample event and is encoded to two
bytes. -/
theorem processRecord_decoded_witness :
    ∃ D2, Redacted sampleEvent D2 ∧
      processRecord (fun _ => (Except.ok sampleEvent : Except String JObject))
          (fun _ => Except.ok [123, 125]) { RecordID := "record-1", Data := [123, 125] } =
        some ({ RecordID := "record-1", Result := .Ok, Data := some [123, 125] }, none) :=
  let ⟨D2, _, hred, hp⟩ :=
    processRecord_decoded (fun _ => (Except.ok sampleEvent : Except String JObject))
      (fun _ => Except.ok [123, 125]) { RecordID := "record-1", Data := [123, 125] }
      sampleEvent rfl
  ⟨D2, hred, hp [123, 125] rfl⟩

theorem keyRedacted_frame (k : String) (f : JObject → Option JObject) (D D2 : JObject)
    (P : JObject → JObject → Prop) (h : KeyRedacted k f D D2)
    (hP : ∀ sub sub2, f sub = some sub2 → P sub sub2) :
    ∀ sub, getKey k D = some (.obj sub) →
      ∃ sub2, getKey k D2 = some (.obj sub2) ∧ P sub sub2 := by
  intro sub hs
  obtain ⟨sub2, hf, hg⟩ := h.1 sub hs
  exact ⟨sub2, hg, hP sub sub2 hf⟩

theorem processMail_frame (mail mail2 : JObject) (h : processMail mail = some mail2) :
    mail2.map Prod.fst = mail.map Prod.fst ∧
      ∀ k, k ≠ "destination" → k ≠ "commonHeaders" → k ≠ "headers" →
        getKey k mail2 = getKey k mail := by
  obtain ⟨m, hp, _, _, _, hfr, hkeys, _⟩ := processMail_result mail
  rw [h] at hp
  cases hp
  exact ⟨hkeys, hfr⟩

/-- C12. The redaction step changes only the listed fields: the redacted document has the
same top-level keys as `D`; every top-level key other than `delivery`, `mail`, `bounce`,
`complaint` and `deliveryDelay` has the value it has in `D`; and inside each of the five
sub-documents the keys are the same and every key other than `recipients` (delivery),
`destination`, `commonHeaders`, `headers` (mail), `bouncedRecipients` (bounce),
`complainedRecipients` (complaint), `delayedRecipients` (deliveryDelay) has the value it
has in `D`. -/
theorem redactEvent_frame (D : JObject) :
    ∃ D2, redactEvent D = some D2 ∧ D2.map Prod.fst = D.map Prod.fst ∧
      (∀ k, k ≠ "delivery" → k ≠ "mail" → k ≠ "bounce" → k ≠ "complaint" →
        k ≠ "deliveryDelay" → getKey k D2 = getKey k D) ∧
      (∀ sub, getKey "delivery" D = some (.obj sub) →
        ∃ sub2, getKey "delivery" D2 = some (.obj sub2) ∧
          (sub2.map Prod.fst = sub.map Prod.fst ∧
            ∀ k, k ≠ "recipients" → getKey k sub2 = getKey k sub)) ∧
      (∀ sub, getKey "mail" D = some (.obj sub) →
        ∃ sub2, getKey "mail" D2 = some (.obj sub2) ∧
          (sub2.map Prod.fst = sub.map Prod.fst ∧
            ∀ k, k ≠ "destination" → k ≠ "commonHeaders" → k ≠ "headers" →
              getKey k sub2 = getKey k sub)) ∧
      (∀ sub, getKey "bounce" D = some (.obj sub) →
        ∃ sub2, getKey "bounce" D2 = some (.obj sub2) ∧
          (sub2.map Prod.fst = sub.map Prod.fst ∧
            ∀ k, k ≠ "bouncedRecipients" → getKey k sub2 = getKey k sub)) ∧
      (∀ sub, getKey "complaint" D = some (.obj sub) →
        ∃ sub2, getKey "complaint" D2 = some (.obj sub2) ∧
          (sub2.map Prod.fst = sub.map Prod.fst ∧
            ∀ k, k ≠ "complainedRecipients" → getKey k sub2 = getKey k sub)) ∧
      (∀ sub, getKey "deliveryDelay" D = some (.obj sub) →
        ∃ sub2, getKey "deliveryDelay" D2 = some (.obj sub2) ∧
          (sub2.map Prod.fst = sub.map Prod.fst ∧
            ∀ k, k ≠ "delayedRecipients" → getKey k sub2 = getKey k sub)) := by
  obtain ⟨D2, hr, h1, h2, h3, h4, h5, hfr, hkeys⟩ := redactEvent_redacted D
  have arr : ∀ (K : String) (g : JValue → Option JValue) (sub sub2 : JObject),
      mapArrayAt K g sub = some sub2 →
        sub2.map Prod.fst = sub.map Prod.fst ∧ ∀ k, k ≠ K → getKey k sub2 = getKey k sub :=
    fun K g sub sub2 h => ⟨(mapArrayAt_frame K g sub sub2 h).2, (mapArrayAt_frame K g sub sub2 h).1⟩
  refine ⟨D2, hr, hkeys, hfr, ?_, ?_, ?_, ?_, ?_⟩
  · exact keyRedacted_frame _ _ D D2 _ h1 (fun sub sub2 h =>
      arr "recipients" maskAddr sub sub2 (processDelivery_eq ▸ h))
  · exact keyRedacted_frame _ _ D D2 _ h2 (fun sub sub2 h => processMail_frame sub sub2 h)
  · exact keyRedacted_frame _ _ D D2 _ h3 (fun sub sub2 h =>
      arr "bouncedRecipients" maskRecipient sub sub2 (processBounce_eq ▸ h))
  · exact keyRedacted_frame _ _ D D2 _ h4 (fun sub sub2 h =>
      arr "complainedRecipients" maskRecipient sub sub2 (processComplaint_eq ▸ h))
  · exact keyRedacted_frame _ _ D D2 _ h5 (fun sub sub2 h =>
      arr "delayedRecipients" maskRecipient sub sub2 (processDeliveryDelay_eq ▸ h))

/-- Witness for C12 on the sample event: the key `eventType` and the key `smtpResponse` of
the delivery sub-document keep their values. -/
theorem redactEvent_frame_witness :
    ∃ D2, redactEvent sampleEvent = some D2 ∧
      D2.map Prod.fst = ["eventType", "mail", "delivery", "bounce"] ∧
      getKey "eventType" D2 = some (.str "Delivery") ∧
      ∃ sub2, getKey "delivery" D2 = some (.obj sub2) ∧
        getKey "smtpResponse" sub2 = some (.str "250 ok") :=
  let ⟨D2, hr, hkeys, hfr, hdel, _⟩ := redactEvent_frame sampleEvent
  let ⟨sub2, hg, _, hsub⟩ := hdel _ rfl
  ⟨D2, hr, hkeys, hfr "eventType" (by decide) (by decide) (by decide) (by decide) (by decide),
    sub2, hg, hsub "smtpResponse" (by decide)⟩

/-! ## The batch handler -/

/-- The three outcomes of `processRecord`: a decode error, an encode error, or success. -/
theorem processRecord_cases {ε : Type} (unmarshal : List UInt8 → Except ε JObject)
    (marshal : JObject → Except ε (List UInt8)) (record : KinesisFirehoseEventRecord) :
    (∃ err, unmarshal record.Data = .error err ∧
      processRecord unmarshal marshal record = some (failedRecord record, some err)) ∨
    (∃ D D2 err, unmarshal record.Data = .ok D ∧ redactEvent D = some D2 ∧
      marshal D2 = .error err ∧
      processRecord unmarshal marshal record = some (failedRecord record, some err)) ∨
    (∃ D D2 data, unmarshal record.Data = .ok D ∧ redactEvent D = some D2 ∧
      marshal D2 = .ok data ∧
      processRecord unmarshal marshal record =
        some ({ RecordID := record.RecordID, Result := .Ok, Data := some data }, none)) := by
  cases hd : unmarshal record.Data with
  | error err =>
    exact Or.inl ⟨err, rfl, by simp only [processRecord, hd, failedRecord]⟩
  | ok D =>
    obtain ⟨D2, hr, _⟩ := redactEvent_redacted D
    have hp := processRecord_of_decoded unmarshal marshal record D D2 hd hr
    cases hm : marshal D2 with
    | error err =>
      rw [hm] at hp
      exact Or.inr (Or.inl ⟨D, D2, err, rfl, hr, hm, hp⟩)
    | ok data =>
      rw [hm] at hp
      exact Or.inr (Or.inr ⟨D, D2, data, rfl, hr, hm, hp⟩)

theorem respond_of_error {ε : Type} (unmarshal : List UInt8 → Except ε JObject)
    (marshal : JObject → Except ε (List UInt8)) (record : KinesisFirehoseEventRecord)
    (p : KinesisFirehoseResponseRecord) (err : ε)
    (h : processRecord unmarshal marshal record = some (p, some err)) :
    respond unmarshal marshal record = failedRecord record := by
  simp only [respond, h]

theorem respond_of_ok {ε : Type} (unmarshal : List UInt8 → Except ε JObject)
    (marshal : JObject → Except ε (List UInt8)) (record : KinesisFirehoseEventRecord)
    (p : KinesisFirehoseResponseRecord)
    (h : processRecord unmarshal marshal record = some (p, none)) :
    respond unmarshal marshal record = p := by
  simp only [respond, h]

theorem respond_recordID {ε : Type} (unmarshal : List UInt8 → Except ε JObject)
    (marshal : JObject → Except ε (List UInt8)) (record : KinesisFirehoseEventRecord) :
    (respond unmarshal marshal record).RecordID = record.RecordID := by
  rcases processRecord_cases unmarshal marshal record with
    ⟨err, _, hp⟩ | ⟨D, D2, err, _, _, _, hp⟩ | ⟨D, D2, data, _, _, _, hp⟩
  · rw [respond_of_error _ _ _ _ _ hp]; rfl
  · rw [respond_of_error _ _ _ _ _ hp]; rfl
  · rw [respond_of_ok _ _ _ _ hp]

/-- The batch handler returns, with a nil error, the per-record responses in input
order. -/
theorem handler_eq_map {ε : Type} (unmarshal : List UInt8 → Except ε JObject)
    (marshal : JObject → Except ε (List UInt8))
    (kinesisEvent : List KinesisFirehoseEventRecord) :
    handler unmarshal marshal kinesisEvent =
      some (kinesisEvent.map (respond unmarshal marshal), none) := by
  unfold handler
  rw [mapM_eq_some_map _ (respond unmarshal marshal)]
  · rfl
  · intro record _
    rcases processRecord_cases unmarshal marshal record with
      ⟨err, _, hp⟩ | ⟨D, D2, err, _, _, _, hp⟩ | ⟨D, D2, data, _, _, _, hp⟩
    · rw [respond_of_error _ _ _ _ _ hp, hp]; rfl
    · rw [respond_of_error _ _ _ _ _ hp, hp]; rfl
    · rw [respond_of_ok _ _ _ _ hp, hp]; rfl

/-- C13. For every input batch, `handler` returns a response whose records are as many
as the input records, and the `RecordID` of the record at each index is the `RecordID` of
the input record at that index. -/
theorem handler_preserves_length_and_ids {ε : Type}
    (unmarshal : List UInt8 → Except ε JObject) (marshal : JObject → Except ε (List UInt8))
    (kinesisEvent : List KinesisFirehoseEventRecord) :
    ∃ records err, handler unmarshal marshal kinesisEvent = some (records, err) ∧
      records.length = kinesisEvent.length ∧
      (∀ (i : Nat) (record : KinesisFirehoseEventRecord), kinesisEvent[i]? = some record →
        ∃ resp, records[i]? = some resp ∧ resp.RecordID = record.RecordID) ∧
      records.map (·.RecordID) = kinesisEvent.map (·.RecordID) := by
  refine ⟨_, _, handler_eq_map unmarshal marshal kinesisEvent, by simp, ?_, ?_⟩
  · intro i record hi
    exact ⟨respond unmarshal marshal record, by simp [List.getElem?_map, hi],
      respond_recordID unmarshal marshal record⟩
  · rw [List.map_map]
    apply List.map_congr_left
    intro record _
    exact respond_recordID unmarshal marshal record

/-- Witness for C13: a batch of two records, the second of which does not decode. -/
theorem handler_preserves_length_and_ids_witness :
    ∃ records err,
      handler (fun data => if data = [] then Except.error "unexpected end of JSON input"
          else Except.ok sampleEvent) (fun _ => Except.ok [123, 125])
          [{ RecordID := "record-1", Data := [123, 125] }, { RecordID := "record-2", Data := [] }] =
        some (records, err) ∧
      records.length = 2 ∧ records.map (·.RecordID) = ["record-1", "record-2"] :=
  let ⟨records, err, h, hl, _, hids⟩ :=
    handler_preserves_length_and_ids
      (fun data => if data = [] then Except.error "unexpected end of JSON input"
        else Except.ok sampleEvent) (fun _ => Except.ok [123, 125])
      [{ RecordID := "record-1", Data := [123, 125] }, { RecordID := "record-2", Data := [] }]
  ⟨records, err, h, hl, hids⟩

/-- C14. `handler` never fails: for every batch, the empty one included, the error it
returns is nil; and a record on which `processRecord` returns an error gets the response
with its own `RecordID`, `Result = ProcessingFailed` and no `Data`. -/
theorem handler_never_fails {ε : Type}
    (unmarshal : List UInt8 → Except ε JObject) (marshal : JObject → Except ε (List UInt8)) :
    (∀ kinesisEvent : List KinesisFirehoseEventRecord,
      ∃ records, handler unmarshal marshal kinesisEvent = some (records, none) ∧
        ∀ (i : Nat) (record : KinesisFirehoseEventRecord) (p : KinesisFirehoseResponseRecord)
          (err : ε), kinesisEvent[i]? = some record →
          processRecord unmarshal marshal record = some (p, some err) →
          records[i]? =
            some { RecordID := record.RecordID, Result := .ProcessingFailed, Data := none }) ∧
    handler unmarshal marshal [] = some ([], none) := by
  refine ⟨fun kinesisEvent => ⟨_, handler_eq_map unmarshal marshal kinesisEvent, ?_⟩,
    handler_eq_map unmarshal marshal []⟩
  intro i record p err hi hp
  rw [List.getElem?_map, hi, Option.map_some', respond_of_error _ _ _ _ _ hp]
  rfl

/-- Witness for C14: a batch in which every record is malformed. -/
theorem handler_never_fails_witness :
    ∃ records,
      handler (fun _ => (Except.error "invalid character" : Except String JObject))
          (fun _ => Except.ok [])
          [{ RecordID := "record-1", Data := [1] }, { RecordID := "record-2", Data := [2] }] =
        some (records, none) ∧
      records[1]? = some { RecordID := "record-2", Result := .ProcessingFailed, Data := none } :=
  let ⟨records, h, hf⟩ :=
    (handler_never_fails (fun _ => (Except.error "invalid character" : Except String JObject))
      (fun _ => Except.ok [])).1
      [{ RecordID := "record-1", Data := [1] }, { RecordID := "record-2", Data := [2] }]
  ⟨records, h, hf 1 { RecordID := "record-2", Data := [2] }
    { RecordID := "record-2", Result := .ProcessingFailed, Data := none } "invalid character"
    rfl rfl⟩

theorem respond_result {ε : Type} (unmarshal : List UInt8 → Except ε JObject)
    (marshal : JObject → Except ε (List UInt8)) (record : KinesisFirehoseEventRecord)
    (hm : ∀ D D2, unmarshal record.Data = .ok D → redactEvent D = some D2 →
      ∃ data, marshal D2 = .ok data) :
    ((respond unmarshal marshal record).Result = .ProcessingFailed ↔
        ∃ err, unmarshal record.Data = .error err) ∧
      ((respond unmarshal marshal record).Result = .Ok ↔
        ∃ D, unmarshal record.Data = .ok D) := by
  rcases processRecord_cases unmarshal marshal record with
    ⟨err, hd, hp⟩ | ⟨D, D2, err, hd, hr, hme, _⟩ | ⟨D, D2, data, hd, _, _, hp⟩
  · rw [respond_of_error _ _ _ _ _ hp]
    refine ⟨⟨fun _ => ⟨err, hd⟩, fun _ => rfl⟩, ⟨fun h => ?_, fun h => ?_⟩⟩
    · simp [failedRecord] at h
    · obtain ⟨D, hD⟩ := h
      rw [hd] at hD
      cases hD
  · obtain ⟨data, hdata⟩ := hm D D2 hd hr
    rw [hme] at hdata
    cases hdata
  · rw [respond_of_ok _ _ _ _ hp]
    refine ⟨⟨fun h => ?_, fun h => ?_⟩, ⟨fun _ => ⟨D, hd⟩, fun _ => rfl⟩⟩
    · simp at h
    · obtain ⟨err, he⟩ := h
      rw [hd] at he
      cases he

/-- C15. Assuming that re-encoding a successfully decoded document cannot fail, the
response of `handler` at each index has `Result = ProcessingFailed` exactly when the
payload at that index fails to decode, and `Result = Ok` otherwise, with the record's own
`RecordID`; so when exactly one payload of a batch is unparsable, the output has the
length of the batch, that record alone is flagged `ProcessingFailed`, and every other
record is flagged `Ok`. -/
theorem handler_flags_exactly_undecodable {ε : Type}
    (unmarshal : List UInt8 → Except ε JObject) (marshal : JObject → Except ε (List UInt8))
    (kinesisEvent : List KinesisFirehoseEventRecord)
    (hm : ∀ record ∈ kinesisEvent, ∀ D D2, unmarshal record.Data = .ok D →
      redactEvent D = some D2 → ∃ data, marshal D2 = .ok data) :
    ∃ records, handler unmarshal marshal kinesisEvent = some (records, none) ∧
      records.length = kinesisEvent.length ∧
      (∀ (i : Nat) (record : KinesisFirehoseEventRecord), kinesisEvent[i]? = some record →
        ∃ resp, records[i]? = some resp ∧ resp.RecordID = record.RecordID ∧
          (resp.Result = .ProcessingFailed ↔ ∃ err, unmarshal record.Data = .error err) ∧
          (resp.Result = .Ok ↔ ∃ D, unmarshal record.Data = .ok D)) ∧
      (∀ i0 : Nat,
        (∀ (i : Nat) (record : KinesisFirehoseEventRecord), kinesisEvent[i]? = some record →
          ((∃ err, unmarshal record.Data = .error err) ↔ i = i0)) →
        ∀ (i : Nat) (record : KinesisFirehoseEventRecord), kinesisEvent[i]? = some record →
          ∃ resp, records[i]? = some resp ∧ resp.RecordID = record.RecordID ∧
            (i = i0 → resp.Result = .ProcessingFailed) ∧ (i ≠ i0 → resp.Result = .Ok)) := by
  have key : ∀ (i : Nat) (record : KinesisFirehoseEventRecord), kinesisEvent[i]? = some record →
      ∃ resp, (kinesisEvent.map (respond unmarshal marshal))[i]? = some resp ∧
        resp.RecordID = record.RecordID ∧
        (resp.Result = .ProcessingFailed ↔ ∃ err, unmarshal record.Data = .error err) ∧
        (resp.Result = .Ok ↔ ∃ D, unmarshal record.Data = .ok D) := by
    intro i record hi
    have hmem : record ∈ kinesisEvent := List.getElem?_mem hi
    have hres := respond_result unmarshal marshal record (hm record hmem)
    exact ⟨respond unmarshal marshal record, by simp [List.getElem?_map, hi],
      respond_recordID unmarshal marshal record, hres.1, hres.2⟩
  refine ⟨_, handler_eq_map unmarshal marshal kinesisEvent, by simp, key, ?_⟩
  intro i0 hone i record hi
  obtain ⟨resp, hresp, hid, hpf, hok⟩ := key i record hi
  refine ⟨resp, hresp, hid, fun e => hpf.2 ((hone i record hi).2 e), fun hne => hok.2 ?_⟩
  cases hd : unmarshal record.Data with
  | ok D => exact ⟨D, rfl⟩
  | error err => exact absurd ((hone i record hi).1 ⟨err, hd⟩) hne

/-- Witness for C15: a batch of three records of which the second alone does not decode. -/
theorem handler_flags_exactly_undecodable_witness :
    ∃ records,
      handler (fun data => if data = [] then Except.error "unexpected end of JSON input"
          else Except.ok sampleEvent) (fun _ => Except.ok [123, 125])
          [{ RecordID := "record-1", Data := [1] }, { RecordID := "record-2", Data := [] },
            { RecordID := "record-3", Data := [3] }] = some (records, none) ∧
      records.length = 3 ∧
      ∃ resp, records[1]? = some resp ∧ resp.RecordID = "record-2" ∧
        (resp.Result = .ProcessingFailed ↔
          ∃ err, (if ([] : List UInt8) = [] then Except.error "unexpected end of JSON input"
            else (Except.ok sampleEvent : Except String JObject)) = .error err) :=
  let ⟨records, h, hl, hall, _⟩ :=
    handler_flags_exactly_undecodable
      (fun data => if data = [] then Except.error "unexpected end of JSON input"
        else Except.ok sampleEvent) (fun _ => Except.ok [123, 125])
      [{ RecordID := "record-1", Data := [1] }, { RecordID := "record-2", Data := [] },
        { RecordID := "record-3", Data := [3] }]
      (fun _ _ _ _ _ _ => ⟨[123, 125], rfl⟩)
  let ⟨resp, hr, hid, hpf, _⟩ := hall 1 { RecordID := "record-2", Data := [] } rfl
  ⟨records, h, hl, resp, hr, hid, hpf⟩

/-- C16. Per-record isolation: the records of the response of `handler` are the
element-wise image of the input records under one function of a single record, so for two
batches that hold the same record at an index the responses at that index are equal,
whatever the other records are. -/
theorem handler_isolates_records {ε : Type}
    (unmarshal : List UInt8 → Except ε JObject) (marshal : JObject → Except ε (List UInt8)) :
    ∃ g : KinesisFirehoseEventRecord → KinesisFirehoseResponseRecord,
      (∀ kinesisEvent : List KinesisFirehoseEventRecord,
        handler unmarshal marshal kinesisEvent = some (kinesisEvent.map g, none)) ∧
      ∀ (b1 b2 : List KinesisFirehoseEventRecord) (i : Nat)
        (record : KinesisFirehoseEventRecord),
        b1[i]? = some record → b2[i]? = some record →
        ∃ rs1 rs2, handler unmarshal marshal b1 = some (rs1, none) ∧
          handler unmarshal marshal b2 = some (rs2, none) ∧
          rs1[i]? = some (g record) ∧ rs2[i]? = some (g record) := by
  refine ⟨respond unmarshal marshal, handler_eq_map unmarshal marshal, ?_⟩
  intro b1 b2 i record h1 h2
  exact ⟨_, _, handler_eq_map unmarshal marshal b1, handler_eq_map unmarshal marshal b2,
    by simp [List.getElem?_map, h1], by simp [List.getElem?_map, h2]⟩

/-- Witness for C16: two batches of the same length that share their first record and
differ in the second, one of them malformed there. -/
theorem handler_isolates_records_witness :
    ∃ g : KinesisFirehoseEventRecord → KinesisFirehoseResponseRecord, ∃ rs1 rs2,
      handler (fun data => if data = [] then Except.error "unexpected end of JSON input"
          else Except.ok sampleEvent) (fun _ => Except.ok [123, 125])
          [{ RecordID := "record-1", Data := [1] }, { RecordID := "record-2", Data := [] }] =
        some (rs1, none) ∧
      handler (fun data => if data = [] then Except.error "unexpected end of JSON input"
          else Except.ok sampleEvent) (fun _ => Except.ok [123, 125])
          [{ RecordID := "record-1", Data := [1] }, { RecordID := "record-9", Data := [9] }] =
        some (rs2, none) ∧
      rs1[0]? = some (g { RecordID := "record-1", Data := [1] }) ∧
      rs2[0]? = some (g { RecordID := "record-1", Data := [1] }) :=
  let ⟨g, _, hiso⟩ :=
    handler_isolates_records
      (fun data => if data = [] then Except.error "unexpected end of JSON input"
        else Except.ok sampleEvent) (fun _ => Except.ok [123, 125])
  let ⟨rs1, rs2, h1, h2, e1, e2⟩ :=
    hiso [{ RecordID := "record-1", Data := [1] }, { RecordID := "record-2", Data := [] }]
      [{ RecordID := "record-1", Data := [1] }, { RecordID := "record-9", Data := [9] }]
      0 { RecordID := "record-1", Data := [1] } rfl rfl
  ⟨g, rs1, rs2, h1, h2, e1, e2⟩

/-! ## The three recipient redactors are one transformation -/

theorem setKey_setKey (k : String) (v v2 : JValue) :
    ∀ (m : JObject), setKey k v2 (setKey k v m) = setKey k v2 m := by
  intro m
  induction m with
  | nil => simp [setKey]
  | cons p rest ih =>
    obtain ⟨k3, v3⟩ := p
    by_cases h : k3 = k
    · simp [setKey, h]
    · simp [setKey, h, ih]

theorem mapArrayAt_setKey_arr (k : String) (f : JValue → Option JValue) (d : JObject)
    (xs ys : List JValue) (h : xs.mapM f = some ys) :
    mapArrayAt k f (setKey k (.arr xs) d) = some (setKey k (.arr ys) d) := by
  unfold mapArrayAt
  simp only [getKey_setKey_same, h, Option.map_some', setKey_setKey]

theorem mapArrayAt_setKey_not_arr (k : String) (f : JValue → Option JValue) (d : JObject)
    (v : JValue) (h : ∀ xs, v ≠ .arr xs) :
    mapArrayAt k f (setKey k v d) = some (setKey k v d) := by
  apply mapArrayAt_of_not_arr
  intro xs hx
  rw [getKey_setKey_same] at hx
  exact h xs (Option.some.inj hx)

/-- C17. `processComplaint` and `processDeliveryDelay` are the same transformation as
`processBounce` up to the name of the recipients key: on a mapping `d` holding the sequence
`xs` under `complainedRecipients`, respectively `delayedRecipients`, they return `d` with
the same sequence `ys` under that key as `processBounce` returns under `bouncedRecipients`
for `d` holding `xs` there, where `ys` is `xs` with every string `emailAddress` masked and
everything else unchanged; and on a value that is not a sequence all three return the
mapping unchanged. -/
theorem recipient_redactors_agree :
    (∀ (d : JObject) (xs : List JValue), ∃ ys, RecipientsMasked xs ys ∧
      processBounce (setKey "bouncedRecipients" (.arr xs) d) =
        some (setKey "bouncedRecipients" (.arr ys) d) ∧
      processComplaint (setKey "complainedRecipients" (.arr xs) d) =
        some (setKey "complainedRecipients" (.arr ys) d) ∧
      processDeliveryDelay (setKey "delayedRecipients" (.arr xs) d) =
        some (setKey "delayedRecipients" (.arr ys) d)) ∧
    (∀ (d : JObject) (v : JValue), (∀ xs, v ≠ .arr xs) →
      processBounce (setKey "bouncedRecipients" v d) =
        some (setKey "bouncedRecipients" v d) ∧
      processComplaint (setKey "complainedRecipients" v d) =
        some (setKey "complainedRecipients" v d) ∧
      processDeliveryDelay (setKey "delayedRecipients" v d) =
        some (setKey "delayedRecipients" v d)) := by
  constructor
  · intro d xs
    obtain ⟨ys, hys⟩ := mapM_total maskRecipient maskRecipient_total xs
    refine ⟨ys, recipientsMasked_of_mapM xs ys hys, ?_, ?_, ?_⟩
    · rw [processBounce_eq]; exact mapArrayAt_setKey_arr _ _ d xs ys hys
    · rw [processComplaint_eq]; exact mapArrayAt_setKey_arr _ _ d xs ys hys
    · rw [processDeliveryDelay_eq]; exact mapArrayAt_setKey_arr _ _ d xs ys hys
  · intro d v hv
    refine ⟨?_, ?_, ?_⟩
    · rw [processBounce_eq]; exact mapArrayAt_setKey_not_arr _ _ d v hv
    · rw [processComplaint_eq]; exact mapArrayAt_setKey_not_arr _ _ d v hv
    · rw [processDeliveryDelay_eq]; exact mapArrayAt_setKey_not_arr _ _ d v hv

/-- Witness for C17: one recipient under each of the three keys, and a string in place of
the sequence. -/
theorem recipient_redactors_agree_witness :
    (∃ ys, RecipientsMasked [.obj [("emailAddress", .str "bob12@example.com")]] ys ∧
      processBounce
          (setKey "bouncedRecipients" (.arr [.obj [("emailAddress", .str "bob12@example.com")]])
            [("feedbackId", .str "0100")]) =
        some (setKey "bouncedRecipients" (.arr ys) [("feedbackId", .str "0100")]) ∧
      processComplaint
          (setKey "complainedRecipients"
            (.arr [.obj [("emailAddress", .str "bob12@example.com")]])
            [("feedbackId", .str "0100")]) =
        some (setKey "complainedRecipients" (.arr ys) [("feedbackId", .str "0100")]) ∧
      processDeliveryDelay
          (setKey "delayedRecipients" (.arr [.obj [("emailAddress", .str "bob12@example.com")]])
            [("feedbackId", .str "0100")]) =
        some (setKey "delayedRecipients" (.arr ys) [("feedbackId", .str "0100")])) ∧
    processComplaint (setKey "complainedRecipients" (.str "x") []) =
      some (setKey "complainedRecipients" (.str "x") []) :=
  ⟨recipient_redactors_agree.1 [("feedbackId", .str "0100")]
      [.obj [("emailAddress", .str "bob12@example.com")]],
    (recipient_redactors_agree.2 [] (.str "x") (fun xs h => by cases h)).2.1⟩

/-! ## Safety of the masking loop -/

theorem count_at_shape (l0 : Char) (ls : List Char) (d0 : Char) (dm : List Char) (dl : Char)
    (hl : '@' ∉ l0 :: ls) (hd : '@' ∉ d0 :: dm ++ [dl]) :
    ((l0 :: ls) ++ '@' :: (d0 :: dm ++ [dl])).count '@' = 1 := by
  rw [List.count_append, List.count_cons_self, List.count_eq_zero.2 hl,
    List.count_eq_zero.2 hd]

/-- C18. `maskEmail` never panics: it returns a result on every input string; every
substring returned by the pattern search contains exactly one `@`, so splitting it on `@`
yields exactly two parts, both non-empty, which are also the parts before and after the
first `@`; hence `parts[1]`, `localPart[0]`, `domainPart[0]` and
`domainPart[len(domainPart)-1]` are in range and the loop body returns. -/
theorem maskEmail_never_panics (s : String) :
    (∃ r, maskEmail s = some r) ∧
    ∀ m ∈ findAllString emailRegex s.data,
      m.count '@' = 1 ∧
      ∃ localPart domainPart, split '@' m = [localPart, domainPart] ∧
        localPart ≠ [] ∧ domainPart ≠ [] ∧
        (split '@' m)[1]? = some domainPart ∧
        (∃ c, localPart[0]? = some c) ∧ (∃ c, domainPart[0]? = some c) ∧
        (∃ c, domainPart[domainPart.length - 1]? = some c) ∧
        localPart = m.takeWhile (· ≠ '@') ∧
        domainPart = (m.dropWhile (· ≠ '@')).drop 1 ∧
        ∃ r, maskOne m = some r := by
  refine ⟨maskEmail_total s, ?_⟩
  intro m hm
  obtain ⟨l0, ls, d0, dm, dl, rfl, hl, hd, hdm, _⟩ :=
    emailPattern_shape m (findAllString_sound s.data m hm)
  have hsplit : split '@' ((l0 :: ls) ++ '@' :: (d0 :: dm ++ [dl])) =
      [l0 :: ls, d0 :: dm ++ [dl]] := by
    rw [split_append_sep _ _ _ hl, split_of_not_mem _ _ hd]
  obtain ⟨h1, h2⟩ := takeWhile_ne_append_sep '@' (d0 :: dm ++ [dl]) (l0 :: ls) hl
  refine ⟨count_at_shape l0 ls d0 dm dl hl hd, l0 :: ls, d0 :: dm ++ [dl], hsplit,
    List.cons_ne_nil _ _, by simp, by rw [hsplit]; rfl, ⟨l0, by simp⟩, ⟨d0, by simp⟩, ⟨dl, ?_⟩,
    h1.symm, by rw [h2]; rfl, ⟨_, maskOne_shape l0 ls d0 dm dl hl hd (by omega)⟩⟩
  have : (d0 :: dm ++ [dl]).length - 1 = (d0 :: dm).length := by simp
  rw [this, List.getElem?_append_right (by simp)]
  simp

/-- Witness for C18: the address found in `"User One <user1@example.com>"`. -/
theorem maskEmail_never_panics_witness :
    ("user1@example.com" : String).data ∈
        findAllString emailRegex ("User One <user1@example.com>" : String).data ∧
      (∃ r, maskEmail "User One <user1@example.com>" = some r) ∧
      ("user1@example.com" : String).data.count '@' = 1 :=
  ⟨by decide, (maskEmail_never_panics "User One <user1@example.com>").1,
    ((maskEmail_never_panics "User One <user1@example.com>").2 _ (by decide)).1⟩

/-- C19. The domain part of every substring matched by the e-mail pattern has at least four
characters, so the branch of `maskEmail` for a domain of length at most two is never
taken, and the domain part of every masked address holds `len(domainPart) - 2`, hence at
least two, asterisks. -/
theorem matched_domain_has_four_chars (s : String) :
    ∀ m ∈ findAllString emailRegex s.data,
      ∃ localPart domainPart, split '@' m = [localPart, domainPart] ∧
        4 ≤ domainPart.length ∧ ¬ domainPart.length ≤ 2 ∧
        ∃ maskedLocal maskedDomain, maskOne m = some (maskedLocal ++ '@' :: maskedDomain) ∧
          '@' ∉ maskedLocal ∧ '@' ∉ maskedDomain ∧
          maskedDomain.length = domainPart.length ∧
          maskedDomain.count '*' = domainPart.length - 2 ∧ 2 ≤ maskedDomain.count '*' := by
  intro m hm
  obtain ⟨l0, ls, d0, dm, dl, rfl, hl, hd, hdm, h0, h1, h2⟩ :=
    emailPattern_shape m (findAllString_sound s.data m hm)
  have hsplit : split '@' ((l0 :: ls) ++ '@' :: (d0 :: dm ++ [dl])) =
      [l0 :: ls, d0 :: dm ++ [dl]] := by
    rw [split_append_sep _ _ _ hl, split_of_not_mem _ _ hd]
  have e0 : l0 ≠ '@' := by rintro rfl; revert h0; decide
  have e1 : d0 ≠ '@' := by rintro rfl; revert h1; decide
  have e2 : dl ≠ '@' := by rintro rfl; revert h2; decide
  have s1 : d0 ≠ '*' := by rintro rfl; revert h1; decide
  have s2 : dl ≠ '*' := by rintro rfl; revert h2; decide
  have hlen : (d0 :: dm ++ [dl]).length = dm.length + 2 := by simp
  have hcount : (d0 :: List.replicate dm.length '*' ++ [dl]).count '*' = dm.length := by
    simp [List.count_cons, List.count_append, List.count_replicate_self, s1, s2]
  refine ⟨l0 :: ls, d0 :: dm ++ [dl], hsplit, by rw [hlen]; omega, by rw [hlen]; omega,
    l0 :: List.replicate ls.length '*', d0 :: List.replicate dm.length '*' ++ [dl],
    maskOne_shape l0 ls d0 dm dl hl hd (by omega), ?_, ?_, by simp, ?_, ?_⟩
  · simp [Ne.symm e0, List.mem_replicate]
  · simp [Ne.symm e1, Ne.symm e2, List.mem_replicate]
  · rw [hcount, hlen]; omega
  · rw [hcount]; exact hdm

/-- Witness for C19: the address found in `"User One <user1@example.com>"`. -/
theorem matched_domain_has_four_chars_witness :
    ("user1@example.com" : String).data ∈
        findAllString emailRegex ("User One <user1@example.com>" : String).data ∧
      ∃ localPart domainPart,
        split '@' ("user1@example.com" : String).data = [localPart, domainPart] ∧
          4 ≤ domainPart.length :=
  ⟨by decide,
    (matched_domain_has_four_chars "User One <user1@example.com>" _ (by decide)).imp
      fun _ h => h.imp fun _ h2 => ⟨h2.1, h2.2.1⟩⟩

/-! ## What a masked address reveals -/

theorem maskEmail_whole_shape (l0 : Char) (ls : List Char) (d0 : Char) (dm : List Char)
    (dl : Char) (hs : EmailPattern ((l0 :: ls) ++ '@' :: (d0 :: dm ++ [dl])))
    (hl : '@' ∉ l0 :: ls) :
    maskEmail ⟨(l0 :: ls) ++ '@' :: (d0 :: dm ++ [dl])⟩ =
      some ⟨l0 :: List.replicate ls.length '*' ++
        '@' :: (d0 :: List.replicate dm.length '*' ++ [dl])⟩ := by
  have hfind := findAllString_whole _ hs
  rw [maskEmail_of_matches _ (by rw [hfind]; exact List.cons_ne_nil _ _)]
  simp only [hfind, List.map_cons, List.map_nil, intercalate_singleton]
  rw [maskedForm_shape l0 ls d0 dm dl hl]

/-- C20. The masked form reveals nothing beyond five observables: two strings that each
as a whole match the e-mail pattern and agree on the length and the first character of the
local part and on the length, the first and the last character of the domain part have
the same `maskEmail` result. -/
theorem maskEmail_reveals_five_observables (s1 s2 l1 d1 l2 d2 : List Char)
    (h1 : EmailPattern s1) (h2 : EmailPattern s2)
    (e1 : s1 = l1 ++ '@' :: d1) (e2 : s2 = l2 ++ '@' :: d2)
    (hlen : l1.length = l2.length) (hhead : l1.head? = l2.head?)
    (hdlen : d1.length = d2.length) (hdhead : d1.head? = d2.head?)
    (hdlast : d1.getLast? = d2.getLast?) :
    maskEmail ⟨s1⟩ = maskEmail ⟨s2⟩ ∧ ∃ r, maskEmail ⟨s1⟩ = some r := by
  obtain ⟨a0, as, b0, bm, bl, rfl, ha, hb, _, _⟩ := emailPattern_shape s1 h1
  obtain ⟨c0, cs, f0, fm, fl, rfl, hc, hf, _, _⟩ := emailPattern_shape s2 h2
  obtain ⟨rfl, rfl⟩ := append_sep_unique '@' _ _ hb _ _ ha e1
  obtain ⟨rfl, rfl⟩ := append_sep_unique '@' _ _ hf _ _ hc e2
  have v1 := maskEmail_whole_shape a0 as b0 bm bl h1 ha
  have v2 := maskEmail_whole_shape c0 cs f0 fm fl h2 hc
  simp only [List.head?_cons, Option.some.injEq, List.cons_append] at hhead hdhead
  rw [List.getLast?_concat, List.getLast?_concat, Option.some.injEq] at hdlast
  simp only [List.length_cons, List.length_append, List.length_singleton,
    Nat.add_right_cancel_iff] at hlen hdlen
  refine ⟨?_, _, v1⟩
  rw [v1, v2, hhead, hdhead, hdlast, hlen, hdlen]

/-- Witness for C20: `ab@c.de` and `ax@c.ye` agree on the five observables. -/
theorem maskEmail_reveals_five_observables_witness :
    EmailPattern ['a', 'b', '@', 'c', '.', 'd', 'e'] ∧
      EmailPattern ['a', 'x', '@', 'c', '.', 'y', 'e'] ∧
      maskEmail ⟨['a', 'b', '@', 'c', '.', 'd', 'e']⟩ =
        maskEmail ⟨['a', 'x', '@', 'c', '.', 'y', 'e']⟩ :=
  have h1 : EmailPattern ['a', 'b', '@', 'c', '.', 'd', 'e'] :=
    ⟨['a', 'b'], ['c'], ['d', 'e'], rfl, by simp, by decide, by simp, by decide, by decide,
      by decide⟩
  have h2 : EmailPattern ['a', 'x', '@', 'c', '.', 'y', 'e'] :=
    ⟨['a', 'x'], ['c'], ['y', 'e'], rfl, by simp, by decide, by simp, by decide, by decide,
      by decide⟩
  ⟨h1, h2, (maskEmail_reveals_five_observables _ _ ['a', 'b'] ['c', '.', 'd', 'e']
    ['a', 'x'] ['c', '.', 'y', 'e'] h1 h2 rfl rfl rfl rfl rfl rfl rfl).1⟩

end SesAnonymizer
